import Mathlib

/-!
Shallow embedding of the `pcm` package's `Analyzer` (the final iteration of
`Analyzer.Write` in `analyzer.go`), together with theorems settling the
specification claims.  Go `int64`/`int` values are modelled as `Int` (the
claims do not concern 64-bit overflow), `time.Duration` as `Int` nanoseconds,
byte slices as `List Nat` (each entry `< 256` in every run of interest), and
Go panics / divergence as `Option.none`.  The observer callbacks are modelled
by recording, for each invocation, the integer data that determines the
floating-point argument passed to the callback.
-/

namespace PcmSpec

/-- Go's `int64` division truncates toward zero. -/
def goDiv (a b : Int) : Int := Int.tdiv a b

/-- `int64(time.Second)` in Go: nanoseconds per second. -/
def nsPerSecond : Int := 1000000000

/-- The `Analyzer` configuration fields (set by the caller before the first
`Write`; never mutated afterwards).  `observeRMS`/`observePeak` record whether
the corresponding callback field is non-nil. -/
structure Config where
  sampleRate : Int
  wordSize : Nat
  channels : Int
  littleEndian : Bool
  signed : Bool
  window : Int
  observeEvery : Int
  observeRMS : Bool
  observePeak : Bool
deriving Repr, DecidableEq

/-- One observer invocation.  `rms sum n seen` models the call
`a.ObserveRMS(10 * math.Log10(math.Sqrt(float64(a.sum/n))/a.wordMax))`:
the float argument is determined by the recorded integers `sum` and `n`
(`sum/n` is Go integer division) together with the configured word size.
`seen` is ghost data: the total number of per-channel samples decoded when
the report fired.  `peak p` models
`a.ObservePeak(10 * math.Log10(float64(a.peak)/a.wordMax))`. -/
inductive Event where
  | rms (sum n : Int) (seen : Nat)
  | peak (p : Int)
deriving Repr, DecidableEq

/-- The mutable state of an `Analyzer`.  The first eight fields mirror the Go
struct fields (`squares = none` models a nil slice; its capacity is
`nwindow.toNat`, the capacity it was created with).  The remaining fields are
ghost instrumentation, not present in the Go struct: `events` is the sequence
of observer invocations so far (oldest first), `hist` the decoded per-channel
samples (newest first), `sinceReset` the number of samples pushed since the
running sum was last zeroed, `frames` the number of complete frames decoded,
and `reports` the number of times the report branch has run. -/
structure AState where
  pending : List Nat
  squares : Option (List Int)
  sum : Int
  next : Int
  countdown : Int
  nobserve : Int
  nwindow : Int
  peak : Int
  events : List Event
  hist : List Int
  sinceReset : Nat
  frames : Nat
  reports : Nat
deriving Repr, DecidableEq

/-- The zero value of the `Analyzer` struct (fresh object). -/
def initA : AState :=
  { pending := [], squares := none, sum := 0, next := 0, countdown := 0,
    nobserve := 0, nwindow := 0, peak := 0,
    events := [], hist := [], sinceReset := 0, frames := 0, reports := 0 }

/-- The validation test on the first `Write` call (`analyzer.go` line 233):
`true` iff the parameters are rejected with `ErrBadParameters`. -/
def badParams (cfg : Config) : Bool :=
  cfg.channels < 1 || cfg.wordSize == 0 || cfg.wordSize &&& 7 != 0 ||
    cfg.wordSize ≥ 64 || cfg.sampleRate < 1 ||
    goDiv (cfg.sampleRate * cfg.observeEvery) nsPerSecond < 1

/-- Derived constant `a.nwindow` (window size in samples across channels). -/
def nwindowOf (cfg : Config) : Int :=
  goDiv (cfg.channels * cfg.sampleRate * cfg.window) nsPerSecond

/-- Derived constant `a.nobserve` (the per-frame report countdown period). -/
def nobserveOf (cfg : Config) : Int :=
  goDiv (cfg.sampleRate * cfg.observeEvery) nsPerSecond - 1

/-- Whether the analyzer runs in circular-buffer mode (a `squares` buffer is
allocated iff `Window != ObserveEvery`). -/
def circularMode (cfg : Config) : Bool := cfg.window != cfg.observeEvery

/-- Lazy initialization (`analyzer.go` lines 232-244), run when
`a.nwindow == 0`.  Returns `none` for the panic in
`make([]int64, 0, int(a.nwindow))` when `nwindow` is negative. -/
def initFields (cfg : Config) (st : AState) : Option AState :=
  let nw := nwindowOf cfg
  let sq : Option (Option (List Int)) :=
    if circularMode cfg then (if nw < 0 then none else some (some []))
    else some st.squares
  match sq with
  | none => none
  | some sq' =>
      some { st with nwindow := nw, squares := sq', next := -1,
                     nobserve := nobserveOf cfg, countdown := nobserveOf cfg }

/-- Number of iterations of the byte-assembly loop
`for b := uint(0); b < a.WordSize; b += 8`. -/
def wordBytes (ws : Nat) : Nat := (ws + 7) / 8

/-- Assemble the raw (unsigned) word from its bytes, exactly as the loop
`s = (s << (bigshift * 8)) | (int64(p[0]) << (littleshift * b))` does:
little-endian `or`s each byte shifted by its position, big-endian shifts the
accumulator left by 8 before `or`ing the next byte. -/
def rawWord (little : Bool) (bytes : List Nat) : Nat :=
  (bytes.foldl
    (fun acc byte =>
      (if little then acc.1 ||| (byte <<< acc.2) else (acc.1 <<< 8) ||| byte,
       acc.2 + 8))
    ((0 : Nat), (0 : Nat))).1

/-- Sign conversion (`analyzer.go` lines 263-269).  For `signed` input with
the top bit set the code runs `s = (s ^ (1<<a.WordSize - 1)) + 1`
(Go parses this as `s = (s ^ ((1 << wordSize) - 1)) + 1`); for unsigned input
it runs `s -= 1 << (a.WordSize - 1)`. -/
def signConvert (signed : Bool) (ws : Nat) (raw : Nat) : Int :=
  if signed then
    if raw &&& (1 <<< (ws - 1)) != 0 then
      ((raw ^^^ ((1 <<< ws) - 1)) + 1 : Nat)
    else
      (raw : Int)
  else
    (raw : Int) - ((1 <<< (ws - 1) : Nat) : Int)

/-- Decode the `channels` words of one frame from the front of `bytes`. -/
def decodeWords (cfg : Config) : Nat → List Nat → List Int
  | 0, _ => []
  | k + 1, bytes =>
      signConvert cfg.signed cfg.wordSize
          (rawWord cfg.littleEndian (bytes.take (wordBytes cfg.wordSize))) ::
        decodeWords cfg k (bytes.drop (wordBytes cfg.wordSize))

/-- Decode one frame: `channels` words of `wordBytes` bytes each, consumed
from the front of `p`.  Returns `none` (Go panics indexing `p[0]` on an empty
slice) when `p` is too short for the words the inner loops would read. -/
def decodeFrame (cfg : Config) (p : List Nat) : Option (List Int × List Nat) :=
  let need := cfg.channels.toNat * wordBytes cfg.wordSize
  if p.length < need then none
  else some (decodeWords cfg cfg.channels.toNat p, p.drop need)

/-- Peak update for one sample (`analyzer.go` lines 283-287). -/
def peakUpd (peak s : Int) : Int :=
  if peak < s then s else if peak < -s then -s else peak

/-- The circular-buffer update (`analyzer.go` lines 274-280) for one squared
sample: advance `next` (wrapping at the capacity, growing the slice while it
is shorter than the capacity), and return the new buffer, the new `next`, and
the evicted value `a.squares[a.next]`.  `none` models the out-of-range panic
on `a.squares[a.next]`. -/
def pushSquare (cap : Nat) (buf : List Int) (next sq : Int) :
    Option (List Int × Int × Int) :=
  if next + 1 = (cap : Int) then
    match buf[(0 : Nat)]? with
    | none => none
    | some old => some (buf.set 0 sq, 0, old)
  else if next + 1 = (buf.length : Int) then
    match (buf ++ [0])[(next + 1).toNat]? with
    | none => none
    | some old => some ((buf ++ [0]).set (next + 1).toNat sq, next + 1, old)
  else if next + 1 < 0 then none
  else
    match buf[(next + 1).toNat]? with
    | none => none
    | some old => some (buf.set (next + 1).toNat sq, next + 1, old)

/-- Process one decoded sample (`analyzer.go` lines 270-287): add its square
to the running sum, update the circular buffer when present, and update the
peak.  Ghost fields: record the sample in `hist` and count it in
`sinceReset`. -/
def pushSample (st : AState) (s : Int) : Option AState :=
  let sq := s * s
  let withGhost (st' : AState) : AState :=
    { st' with peak := peakUpd st'.peak s, hist := s :: st'.hist,
               sinceReset := st'.sinceReset + 1 }
  match st.squares with
  | none => some (withGhost { st with sum := st.sum + sq })
  | some buf =>
      match pushSquare st.nwindow.toNat buf st.next sq with
      | none => none
      | some (buf', nx', old) =>
          some (withGhost { st with squares := some buf', next := nx',
                                    sum := st.sum + sq - old })

/-- Process a list of decoded samples in order. -/
def pushSamples : AState → List Int → Option AState
  | st, [] => some st
  | st, s :: rest =>
      match pushSample st s with
      | none => none
      | some st' => pushSamples st' rest

/-- The report divisor `n` (`analyzer.go` lines 290-293): the number of
slots currently in the circular buffer, or `nwindow` in reset mode. -/
def reportN (st : AState) : Int :=
  match st.squares with
  | some buf => (buf.length : Int)
  | none => st.nwindow

/-- The observer invocations of one report, in program order (RMS first,
then peak), filtered by which callbacks are configured.  The ghost `seen`
component of the RMS event records `hist.length` at report time. -/
def reportEvents (cfg : Config) (st : AState) : List Event :=
  let ev1 := if cfg.observeRMS then
    st.events ++ [Event.rms st.sum (reportN st) st.hist.length]
    else st.events
  if cfg.observePeak then ev1 ++ [Event.peak st.peak] else ev1

/-- State change of one report (`analyzer.go` lines 294-304): emit the
observations, zero the peak after a peak observation, zero the running sum
(and the `sinceReset` ghost) in reset mode, and restart the countdown. -/
def applyReport (cfg : Config) (st : AState) : AState :=
  { st with
    countdown := st.nobserve
    events := reportEvents cfg st
    peak := if cfg.observePeak then 0 else st.peak
    sum := if st.squares = none then 0 else st.sum
    sinceReset := if st.squares = none then 0 else st.sinceReset
    reports := st.reports + 1 }

/-- The per-frame countdown and report step (`analyzer.go` lines 289-305).
When the decremented countdown hits exactly zero a report fires; `none`
models the division-by-zero panic in `a.sum/n` (only evaluated when an RMS
observer is configured).  The ghost `frames` counts this frame, and
`reports` counts executions of the report branch. -/
def reportCheck (cfg : Config) (st0 : AState) : Option AState :=
  let st : AState := { st0 with frames := st0.frames + 1 }
  if st.countdown - 1 = 0 then
    if cfg.observeRMS = true ∧ reportN st = 0 then none
    else some (applyReport cfg st)
  else some { st with countdown := st.countdown - 1 }

/-- Decode and process one frame. -/
def procFrame (cfg : Config) (st : AState) (samples : List Int) :
    Option AState :=
  match pushSamples st samples with
  | none => none
  | some st' => reportCheck cfg st'

/-- `int(a.WordSize)` times `a.Channels`, divided by 8 in Go `int`
arithmetic: the frame length used in the loop condition on line 256. -/
def frameBytesI (cfg : Config) : Int :=
  goDiv (cfg.channels * (cfg.wordSize : Int)) 8

/-- The frame loop `for len(p) >= a.Channels*int(a.WordSize)/8` of
`Analyzer.Write`, as structural recursion on a fuel bound.  Each iteration
decodes one frame and runs the report check.  If an iteration consumes no
bytes the Go loop never terminates; this divergence is modelled as `none`
(the `rest.length < p.length` guard), so the fuel `p.length + 1` used by
`runFrames` below is never exhausted. -/
def runFramesF (cfg : Config) : Nat → AState → List Nat →
    Option (AState × List Nat)
  | 0, _, _ => none
  | fuel + 1, st, p =>
    if (p.length : Int) < frameBytesI cfg then some (st, p)
    else
      match decodeFrame cfg p with
      | none => none
      | some (samples, rest) =>
          match procFrame cfg st samples with
          | none => none
          | some st' =>
              if rest.length < p.length then runFramesF cfg fuel st' rest
              else none

/-- The frame loop of `Analyzer.Write`. -/
def runFrames (cfg : Config) (st : AState) (p : List Nat) :
    Option (AState × List Nat) :=
  runFramesF cfg (p.length + 1) st p

theorem runFramesF_fuel (cfg : Config) :
    ∀ (f1 f2 : Nat) (p : List Nat) (st : AState),
      p.length < f1 → p.length < f2 →
      runFramesF cfg f1 st p = runFramesF cfg f2 st p := by
  intro f1
  induction f1 with
  | zero => intro f2 p st h1 h2; omega
  | succ f1 ih =>
      intro f2 p st h1 h2
      rcases f2 with _ | f2
      · omega
      · simp only [runFramesF]
        by_cases hlt : ((p.length : Nat) : Int) < frameBytesI cfg
        · rw [if_pos hlt, if_pos hlt]
        · rw [if_neg hlt, if_neg hlt]
          rcases hdf : decodeFrame cfg p with _ | sr
          · simp only [hdf]
          · obtain ⟨samples, rest⟩ := sr
            simp only [hdf]
            rcases hpf : procFrame cfg st samples with _ | st1
            · simp only [hpf]
            · simp only [hpf]
              by_cases hdec : rest.length < p.length
              · rw [if_pos hdec, if_pos hdec]
                exact ih f2 rest st1 (by omega) (by omega)
              · rw [if_neg hdec, if_neg hdec]

/-- Unfolding equation of the frame loop, matching the Go loop body. -/
theorem runFrames_eq (cfg : Config) (st : AState) (p : List Nat) :
    runFrames cfg st p =
      if (p.length : Int) < frameBytesI cfg then some (st, p)
      else
        match decodeFrame cfg p with
        | none => none
        | some (samples, rest) =>
            match procFrame cfg st samples with
            | none => none
            | some st' =>
                if rest.length < p.length then runFrames cfg st' rest
                else none := by
  show runFramesF cfg (p.length + 1) st p = _
  simp only [runFramesF]
  by_cases hlt : ((p.length : Nat) : Int) < frameBytesI cfg
  · rw [if_pos hlt, if_pos hlt]
  · rw [if_neg hlt, if_neg hlt]
    rcases hdf : decodeFrame cfg p with _ | sr
    · simp only [hdf]
    · obtain ⟨samples, rest⟩ := sr
      simp only [hdf]
      rcases hpf : procFrame cfg st samples with _ | st1
      · simp only [hpf]
      · simp only [hpf]
        by_cases hdec : rest.length < p.length
        · rw [if_pos hdec, if_pos hdec]
          exact runFramesF_fuel cfg p.length (rest.length + 1) rest st1
            (by omega) (by omega)
        · rw [if_neg hdec, if_neg hdec]

/-- The decoding part of `Analyzer.Write` (after lazy initialization):
prepend the pending bytes, run the frame loop, and store the remainder as
the new pending bytes.  The call returns `len(p)` and no error. -/
def writeBody (cfg : Config) (st : AState) (p : List Nat) :
    Option (AState × Nat × Bool) :=
  match runFrames cfg st (st.pending ++ p) with
  | none => none
  | some (st2, rest) => some ({ st2 with pending := rest }, p.length, false)

/-- `Analyzer.Write`.  Returns `none` for a Go panic, otherwise the new
state, the byte count returned, and whether `ErrBadParameters` was
returned. -/
def write (cfg : Config) (st : AState) (p : List Nat) :
    Option (AState × Nat × Bool) :=
  if st.nwindow = 0 then
    if badParams cfg then some (st, 0, true)
    else
      match initFields cfg st with
      | none => none
      | some st1 => writeBody cfg st1 p
  else writeBody cfg st p

/-- Run a sequence of `Write` calls, starting from the given state. -/
def writeChunksAux (cfg : Config) : Option AState → List (List Nat) → Option AState
  | acc, [] => acc
  | none, _ :: _ => none
  | some st, c :: rest =>
      match write cfg st c with
      | none => none
      | some (st', _, _) => writeChunksAux cfg (some st') rest

/-- Run a sequence of `Write` calls on a fresh `Analyzer`. -/
def writeChunks (cfg : Config) (chunks : List (List Nat)) : Option AState :=
  writeChunksAux cfg (some initA) chunks

/-! ### Arithmetic and list helpers -/

/-- Sum of the squares of a list of samples. -/
def sqSum (l : List Int) : Int := (l.map (fun s => s * s)).sum

/-- The capacity of the circular buffer, `int(a.nwindow)` at allocation. -/
def capOf (cfg : Config) : Nat := (nwindowOf cfg).toNat

theorem sqSum_nil : sqSum [] = 0 := rfl

theorem sqSum_cons (a : Int) (l : List Int) :
    sqSum (a :: l) = a * a + sqSum l := by
  simp [sqSum]

theorem sqSum_append (l1 l2 : List Int) :
    sqSum (l1 ++ l2) = sqSum l1 + sqSum l2 := by
  simp [sqSum]

theorem goDiv_nonneg_eq (a b : Int) (ha : 0 ≤ a) (hb : 0 ≤ b) :
    goDiv a b = ((a.toNat / b.toNat : Nat) : Int) := by
  unfold goDiv
  rw [Int.ofNat_tdiv]
  rw [Int.toNat_of_nonneg ha, Int.toNat_of_nonneg hb]

theorem peakUpd_nonneg (p s : Int) (h : 0 ≤ p) : 0 ≤ peakUpd p s := by
  unfold peakUpd
  split <;> [omega; skip]
  split <;> omega

theorem peakUpd_eq_max (p s : Int) (h : 0 ≤ p) :
    peakUpd p s = max p |s| := by
  unfold peakUpd
  rcases abs_cases s with ⟨h1, h2⟩ | ⟨h1, h2⟩ <;>
    · split <;> [skip; split] <;> omega

/-- For `raw < 2^w`, xor with the all-ones mask `2^w - 1` is complement. -/
theorem xor_two_pow_sub_one (w : Nat) :
    ∀ raw : Nat, raw < 2 ^ w → raw ^^^ (2 ^ w - 1) = 2 ^ w - 1 - raw := by
  induction w with
  | zero =>
      intro raw h
      have : raw = 0 := by omega
      subst this
      rfl
  | succ w ih =>
      intro raw h
      have hp : 2 ^ (w + 1) = 2 * 2 ^ w := by rw [pow_succ]; ring
      have hpos : 1 ≤ 2 ^ w := Nat.one_le_two_pow
      have h2 : raw / 2 < 2 ^ w := by omega
      have ihx := ih (raw / 2) h2
      have hdiv : (raw ^^^ (2 ^ (w + 1) - 1)) / 2 =
          raw / 2 ^^^ (2 ^ (w + 1) - 1) / 2 := Nat.xor_div_two
      have hd2 : (2 ^ (w + 1) - 1) / 2 = 2 ^ w - 1 := by omega
      rw [hd2] at hdiv
      rw [ihx] at hdiv
      have hmod : (raw ^^^ (2 ^ (w + 1) - 1)) % 2 =
          (raw + (2 ^ (w + 1) - 1)) % 2 := Nat.xor_mod_two_eq
      omega

/-! ### Reachability invariants -/

/-- The parts of the reachability invariant that are preserved by every
single-sample push (the frame-level clauses of `GoodSt` are only restored at
frame boundaries).  `capOf cfg` is the circular buffer's capacity. -/
structure CoreInv (cfg : Config) (st : AState) : Prop where
  valid : badParams cfg = false
  nwin : st.nwindow = nwindowOf cfg
  nobs : st.nobserve = nobserveOf cfg
  mode : st.squares.isSome = circularMode cfg
  peakNN : 0 ≤ st.peak
  resetSum : st.squares = none →
    st.sum = sqSum (st.hist.take st.sinceReset) ∧ st.sinceReset ≤ st.hist.length
  circNW : st.squares.isSome = true → 0 ≤ st.nwindow
  circLen : ∀ buf, st.squares = some buf →
    buf.length = min st.hist.length (capOf cfg)
  circNext : ∀ buf, st.squares = some buf →
    st.next = (buf.length : Int) - 1 ∨
      (buf.length = capOf cfg ∧ 0 ≤ st.next ∧ st.next < (capOf cfg : Int))
  circSum : ∀ buf, st.squares = some buf →
    st.sum = sqSum (st.hist.take buf.length)
  circCont : ∀ buf, st.squares = some buf → ∀ j, j < buf.length →
    buf[(st.next.toNat + capOf cfg - j) % capOf cfg]? =
      st.hist[j]?.map (fun h => h * h)

/-- The full reachability invariant, holding between frames. -/
structure GoodSt (cfg : Config) (st : AState) : Prop where
  core : CoreInv cfg st
  histLen : st.hist.length = st.frames * cfg.channels.toNat
  sched1 : 1 ≤ nobserveOf cfg →
    st.countdown = nobserveOf cfg -
      ((st.frames % (nobserveOf cfg).toNat : Nat) : Int) ∧
    st.reports = st.frames / (nobserveOf cfg).toNat
  sched0 : nobserveOf cfg = 0 →
    st.countdown = -(st.frames : Int) ∧ st.reports = 0
  evEmpty : st.reports = 0 → st.events = []
  evOK : ∀ s n seen, Event.rms s n seen ∈ st.events →
    n = if circularMode cfg then ((min seen (capOf cfg) : Nat) : Int)
        else nwindowOf cfg
  degen : st.nwindow = 0 → st.frames = 0

/-- Behaviour of one circular-buffer push under the buffer invariant: it
succeeds, and either grows the buffer (evicting `0`) or overwrites the slot
`(next.toNat + 1) % cap`. -/
theorem pushSquare_spec (cap : Nat) (buf : List Int) (next sq : Int)
    (hcap : 1 ≤ cap) (hlen : buf.length ≤ cap)
    (hnx : next = (buf.length : Int) - 1 ∨
           (buf.length = cap ∧ 0 ≤ next ∧ next < (cap : Int))) :
    ∃ buf' nx' old, pushSquare cap buf next sq = some (buf', nx', old) ∧
      ((buf.length < cap ∧ next = (buf.length : Int) - 1 ∧
        buf' = (buf ++ [0]).set buf.length sq ∧
        nx' = (buf.length : Int) ∧ old = 0)
       ∨
       (buf.length = cap ∧ ∃ k : Nat,
          nx' = (k : Int) ∧ k < cap ∧ k = (next.toNat + 1) % cap ∧
          buf[k]? = some old ∧ buf' = buf.set k sq)) := by
  rcases Nat.lt_or_ge buf.length cap with hfull | hfull
  · -- growth phase: `next = len - 1`, the slice is appended to
    have hnx' : next = (buf.length : Int) - 1 := by
      rcases hnx with h | ⟨h, _, _⟩
      · exact h
      · omega
    have c1 : ¬(next + 1 = (cap : Int)) := by omega
    have c2 : next + 1 = (buf.length : Int) := by omega
    have hidx : (next + 1).toNat = buf.length := by omega
    have hget : (buf ++ [0])[buf.length]? = some 0 :=
      List.getElem?_concat_length buf 0
    refine ⟨(buf ++ [0]).set buf.length sq, (buf.length : Int), 0, ?_,
      Or.inl ⟨hfull, hnx', rfl, rfl, rfl⟩⟩
    rw [pushSquare, if_neg c1, if_pos c2, hidx, hget, c2]
  · -- the buffer is full
    have hlen' : buf.length = cap := by omega
    have hnn : 0 ≤ next := by
      rcases hnx with h | ⟨_, h, _⟩ <;> omega
    have hlt : next < (cap : Int) := by
      rcases hnx with h | ⟨_, _, h⟩ <;> omega
    set k : Nat := (next.toNat + 1) % cap with hk
    have hklt : k < cap := Nat.mod_lt _ (by omega)
    obtain ⟨old, hold⟩ : ∃ old, buf[k]? = some old := by
      have : k < buf.length := by omega
      exact ⟨buf[k], List.getElem?_eq_getElem this⟩
    rcases Nat.lt_or_ge (next.toNat + 1) cap with hcase | hcase
    · -- no wraparound: `next+1 < cap`, overwrite slot `next+1`
      have hkval : k = next.toNat + 1 := by
        rw [hk]; exact Nat.mod_eq_of_lt hcase
      have c1 : ¬(next + 1 = (cap : Int)) := by omega
      have c2 : ¬(next + 1 = (buf.length : Int)) := by omega
      have c3 : ¬(next + 1 < 0) := by omega
      have htn : (next + 1).toNat = k := by omega
      refine ⟨buf.set k sq, next + 1, old, ?_,
        Or.inr ⟨hlen', k, by omega, hklt, rfl, hold, rfl⟩⟩
      rw [pushSquare, if_neg c1, if_neg c2, if_neg c3, htn, hold]
    · -- wraparound: `next+1 = cap`, overwrite slot `0`
      have hkval : k = 0 := by
        have : next.toNat + 1 = cap := by omega
        rw [hk, this, Nat.mod_self]
      have c1 : next + 1 = (cap : Int) := by omega
      have hold0 : buf[(0 : Nat)]? = some old := by rw [← hkval]; exact hold
      refine ⟨buf.set k sq, (k : Int), old, ?_,
        Or.inr ⟨hlen', k, rfl, hklt, rfl, hold, rfl⟩⟩
      rw [pushSquare, if_pos c1, hold0, hkval]
      rfl

theorem getElem?_set_lt (l : List Int) (i : Nat) (a : Int) (h : i < l.length) :
    (l.set i a)[i]? = some a := by
  rw [List.getElem?_set_self']
  simp [List.getElem?_eq_getElem h, h]

theorem mod_shift_ne (n a d : Nat) (h0 : 0 < d) (h1 : d < n) :
    (a + d) % n ≠ a % n := by
  intro h
  have h2 : Nat.ModEq n (d + a) (0 + a) := by
    show (d + a) % n = (0 + a) % n
    rw [Nat.add_comm d a, Nat.zero_add]
    exact h
  have h3 : Nat.ModEq n d 0 := Nat.ModEq.add_right_cancel' a h2
  have h4 : n ∣ d := (Nat.modEq_zero_iff_dvd).mp h3
  have := Nat.le_of_dvd h0 h4
  omega

/-- A circular-buffer push with capacity `0` always panics (this is the
degenerate `window ≠ observeEvery`, `windowSamples = 0` configuration). -/
theorem pushSquare_cap0 (sq : Int) : pushSquare 0 [] (-1) sq = none := rfl

/-- `pushSample` preserves the push-stable invariant; it records the sample
in `hist`, updates the peak, and leaves the frame-level fields alone. -/
theorem pushSample_pres (cfg : Config) (st st' : AState) (s : Int)
    (hc : CoreInv cfg st) (h : pushSample st s = some st') :
    CoreInv cfg st' ∧
      st'.hist = s :: st.hist ∧ st'.pending = st.pending ∧
      st'.frames = st.frames ∧ st'.countdown = st.countdown ∧
      st'.reports = st.reports ∧ st'.events = st.events ∧
      st'.nobserve = st.nobserve ∧ st'.nwindow = st.nwindow ∧
      st'.sinceReset = st.sinceReset + 1 ∧ st'.peak = peakUpd st.peak s ∧
      st'.squares.isSome = st.squares.isSome := by
  rcases hsq : st.squares with _ | buf
  · -- reset-accumulator mode: no buffer
    simp only [pushSample, hsq] at h
    injection h with h
    subst h
    obtain ⟨hsum, hsr⟩ := hc.resetSum hsq
    refine ⟨⟨hc.valid, hc.nwin, hc.nobs, ?_, peakUpd_nonneg _ _ hc.peakNN,
        ?_, ?_, ?_, ?_, ?_, ?_⟩, rfl, rfl, rfl, rfl, rfl, rfl, rfl, rfl,
        rfl, rfl, ?_⟩
    · show (none : Option (List Int)).isSome = circularMode cfg
      rw [← hc.mode, hsq]
    · intro _
      refine ⟨?_, by simp; omega⟩
      show st.sum + s * s = sqSum ((s :: st.hist).take (st.sinceReset + 1))
      rw [List.take_succ_cons, sqSum_cons, hsum]
      ring
    · intro hs
      simp at hs
    · intro b hb
      simp at hb
    · intro b hb
      simp at hb
    · intro b hb
      simp at hb
    · intro b hb
      simp at hb
    · rfl
  · -- circular-buffer mode
    simp only [pushSample, hsq] at h
    have hcapeq : st.nwindow.toNat = capOf cfg := by rw [hc.nwin]; rfl
    rw [hcapeq] at h
    rcases Nat.eq_zero_or_pos (capOf cfg) with hc0 | hcap1
    · -- capacity 0: the push always panics, contradicting `h`
      exfalso
      have hlen := hc.circLen buf hsq
      rw [hc0] at hlen
      simp only [Nat.min_zero] at hlen
      have hbuf : buf = [] := List.length_eq_zero.mp hlen
      have hnx1 : st.next = -1 := by
        rcases hc.circNext buf hsq with h1 | ⟨_, h2, h3⟩
        · rw [hbuf] at h1; simpa using h1
        · rw [hc0] at h3; omega
      rw [hc0, hbuf, hnx1, pushSquare_cap0] at h
      exact Option.noConfusion h
    · have hlen := hc.circLen buf hsq
      have hlenle : buf.length ≤ capOf cfg := by omega
      obtain ⟨buf₂, nx₂, old₂, hps, hchar⟩ :=
        pushSquare_spec (capOf cfg) buf st.next (s * s) hcap1 hlenle
          (hc.circNext buf hsq)
      rw [hps] at h
      injection h with h
      subst h
      have hsum := hc.circSum buf hsq
      rcases hchar with ⟨hlt, hnxeq, hbuf₂, hnx₂, hold₂⟩ |
        ⟨hful, k, hnx₂, hklt, hkval, holdk, hbuf₂⟩
      · -- growth phase
        have hlen₂ : buf₂.length = buf.length + 1 := by
          rw [hbuf₂]; simp
        have hhl : buf.length = st.hist.length ∧
            st.hist.length < capOf cfg := by omega
        have hnxt : nx₂.toNat = buf.length := by rw [hnx₂]; omega
        refine ⟨⟨hc.valid, hc.nwin, hc.nobs, ?_,
            peakUpd_nonneg _ _ hc.peakNN, ?_, ?_, ?_, ?_, ?_, ?_⟩,
            rfl, rfl, rfl, rfl, rfl, rfl, rfl, rfl, rfl, rfl, ?_⟩
        · show (some buf₂ : Option (List Int)).isSome = circularMode cfg
          rw [← hc.mode, hsq]
          rfl
        · intro hn
          simp at hn
        · intro _
          show 0 ≤ st.nwindow
          exact hc.circNW (by rw [hsq]; rfl)
        · intro b hb
          have hb' : buf₂ = b := by simpa using hb
          subst hb'
          show buf₂.length = min (s :: st.hist).length (capOf cfg)
          simp only [List.length_cons, hlen₂]
          omega
        · intro b hb
          have hb' : buf₂ = b := by simpa using hb
          subst hb'
          left
          show nx₂ = (buf₂.length : Int) - 1
          rw [hnx₂, hlen₂]
          push_cast
          ring
        · intro b hb
          have hb' : buf₂ = b := by simpa using hb
          subst hb'
          show st.sum + s * s - old₂ = sqSum ((s :: st.hist).take buf₂.length)
          rw [hlen₂, List.take_succ_cons, sqSum_cons, hold₂, hsum]
          ring
        · intro b hb
          have hb' : buf₂ = b := by simpa using hb
          subst hb'
          intro j hj
          rw [hlen₂] at hj
          show buf₂[(nx₂.toNat + capOf cfg - j) % capOf cfg]? =
            ((s :: st.hist)[j]?).map (fun h => h * h)
          rcases j with _ | j'
          · have hidx : (nx₂.toNat + capOf cfg - 0) % capOf cfg =
                buf.length := by
              rw [hnxt, Nat.sub_zero, Nat.add_mod_right]
              exact Nat.mod_eq_of_lt hlt
            rw [hidx, hbuf₂]
            rw [getElem?_set_lt _ _ _ (by simp : buf.length < (buf ++ [0]).length)]
            simp
          · have hj' : j' < buf.length := by omega
            have hidx : (nx₂.toNat + capOf cfg - (j' + 1)) % capOf cfg =
                buf.length - (j' + 1) := by
              rw [hnxt]
              have e1 : buf.length + capOf cfg - (j' + 1) =
                  (buf.length - (j' + 1)) + capOf cfg := by omega
              rw [e1, Nat.add_mod_right]
              exact Nat.mod_eq_of_lt (by omega)
            have hnt : st.next.toNat = buf.length - 1 := by
              rw [hnxeq]; omega
            have hoidx : (st.next.toNat + capOf cfg - j') % capOf cfg =
                buf.length - (j' + 1) := by
              rw [hnt]
              have e1 : buf.length - 1 + capOf cfg - j' =
                  (buf.length - (j' + 1)) + capOf cfg := by omega
              rw [e1, Nat.add_mod_right]
              exact Nat.mod_eq_of_lt (by omega)
            have hcont := hc.circCont buf hsq j' hj'
            rw [hoidx] at hcont
            rw [hidx, hbuf₂]
            rw [List.getElem?_set_ne (by omega :
              buf.length ≠ buf.length - (j' + 1))]
            rw [List.getElem?_append_left (by omega :
              buf.length - (j' + 1) < buf.length)]
            rw [hcont]
            simp
        · show (some buf₂ : Option (List Int)).isSome = (some buf).isSome
          rfl
      · -- buffer full: overwrite slot `k`
        have hlen₂ : buf₂.length = capOf cfg := by
          rw [hbuf₂]; simp [hful]
        have hhl : capOf cfg ≤ st.hist.length := by omega
        have hnn : 0 ≤ st.next ∧ st.next < (capOf cfg : Int) := by
          rcases hc.circNext buf hsq with h1 | ⟨_, h2, h3⟩
          · rw [hful] at h1
            constructor <;> omega
          · exact ⟨h2, h3⟩
        have hcold := hc.circCont buf hsq (capOf cfg - 1) (by omega)
        have e2 : st.next.toNat + capOf cfg - (capOf cfg - 1) =
            st.next.toNat + 1 := by omega
        rw [e2] at hcold
        have e2' : (st.next.toNat + 1) % capOf cfg = k := hkval.symm
        rw [e2', holdk] at hcold
        obtain ⟨hv, hhv⟩ : ∃ hv, st.hist[capOf cfg - 1]? = some hv :=
          ⟨st.hist[capOf cfg - 1], List.getElem?_eq_getElem (by omega)⟩
        rw [hhv] at hcold
        have holdv : old₂ = hv * hv := by
          simpa using hcold
        refine ⟨⟨hc.valid, hc.nwin, hc.nobs, ?_,
            peakUpd_nonneg _ _ hc.peakNN, ?_, ?_, ?_, ?_, ?_, ?_⟩,
            rfl, rfl, rfl, rfl, rfl, rfl, rfl, rfl, rfl, rfl, ?_⟩
        · show (some buf₂ : Option (List Int)).isSome = circularMode cfg
          rw [← hc.mode, hsq]
          rfl
        · intro hn
          simp at hn
        · intro _
          show 0 ≤ st.nwindow
          exact hc.circNW (by rw [hsq]; rfl)
        · intro b hb
          have hb' : buf₂ = b := by simpa using hb
          subst hb'
          show buf₂.length = min (s :: st.hist).length (capOf cfg)
          simp only [List.length_cons, hlen₂]
          omega
        · intro b hb
          have hb' : buf₂ = b := by simpa using hb
          subst hb'
          right
          show buf₂.length = capOf cfg ∧ 0 ≤ nx₂ ∧ nx₂ < (capOf cfg : Int)
          refine ⟨hlen₂, ?_, ?_⟩ <;> rw [hnx₂] <;> omega
        · intro b hb
          have hb' : buf₂ = b := by simpa using hb
          subst hb'
          show st.sum + s * s - old₂ = sqSum ((s :: st.hist).take buf₂.length)
          obtain ⟨c', hc'⟩ : ∃ c', capOf cfg = c' + 1 :=
            ⟨capOf cfg - 1, by omega⟩
          have ht1 : (s :: st.hist).take (capOf cfg) =
              s :: st.hist.take c' := by
            rw [hc', List.take_succ_cons]
          have ht2 : st.hist.take (capOf cfg) =
              st.hist.take c' ++ [hv] := by
            rw [hc', List.take_succ]
            have hcv : st.hist[c']? = some hv := by
              rw [← hhv, hc']
              simp
            rw [hcv]
            rfl
          rw [hful] at hsum
          rw [hlen₂, ht1, sqSum_cons, holdv, hsum, ht2, sqSum_append,
            sqSum_cons, sqSum_nil]
          ring
        · intro b hb
          have hb' : buf₂ = b := by simpa using hb
          subst hb'
          intro j hj
          rw [hlen₂] at hj
          show buf₂[(nx₂.toNat + capOf cfg - j) % capOf cfg]? =
            ((s :: st.hist)[j]?).map (fun h => h * h)
          rcases j with _ | j'
          · have hidx : (nx₂.toNat + capOf cfg - 0) % capOf cfg = k := by
              rw [hnx₂, Int.toNat_natCast, Nat.sub_zero, Nat.add_mod_right]
              exact Nat.mod_eq_of_lt hklt
            rw [hidx, hbuf₂]
            rw [getElem?_set_lt _ _ _ (by omega : k < buf.length)]
            simp
          · have hd : 0 < capOf cfg - (j' + 1) ∧
                capOf cfg - (j' + 1) < capOf cfg := by omega
            have hidx : (nx₂.toNat + capOf cfg - (j' + 1)) % capOf cfg =
                (st.next.toNat + capOf cfg - j') % capOf cfg := by
              rw [hnx₂, Int.toNat_natCast]
              have e1 : k + capOf cfg - (j' + 1) =
                  k + (capOf cfg - (j' + 1)) := by omega
              rw [e1, hkval, Nat.mod_add_mod]
              have e3 : st.next.toNat + 1 + (capOf cfg - (j' + 1)) =
                  st.next.toNat + (capOf cfg - j') := by omega
              have e4 : st.next.toNat + capOf cfg - j' =
                  st.next.toNat + (capOf cfg - j') := by omega
              rw [e3, e4]
            have hne : k ≠ (nx₂.toNat + capOf cfg - (j' + 1)) % capOf cfg := by
              rw [hnx₂, Int.toNat_natCast]
              have e1 : k + capOf cfg - (j' + 1) =
                  k + (capOf cfg - (j' + 1)) := by omega
              rw [e1, hkval, Nat.mod_add_mod]
              exact fun hcontra =>
                mod_shift_ne (capOf cfg) (st.next.toNat + 1)
                  (capOf cfg - (j' + 1)) hd.1 hd.2 hcontra.symm
            rw [hbuf₂, List.getElem?_set_ne hne, hidx]
            have hcont := hc.circCont buf hsq j' (by omega)
            rw [hcont]
            simp
        · show (some buf₂ : Option (List Int)).isSome = (some buf).isSome
          rfl


/-! ### Consequences of validation -/

theorem valid_facts (cfg : Config) (h : badParams cfg = false) :
    1 ≤ cfg.channels ∧ cfg.wordSize ≠ 0 ∧ cfg.wordSize &&& 7 = 0 ∧
      cfg.wordSize < 64 ∧ 1 ≤ cfg.sampleRate ∧
      1 ≤ goDiv (cfg.sampleRate * cfg.observeEvery) nsPerSecond := by
  unfold badParams at h
  simp only [Bool.or_eq_false_iff, decide_eq_false_iff_not, not_lt,
    beq_eq_false_iff_ne, ne_eq, bne_eq_false_iff_eq, not_le] at h
  refine ⟨by omega, h.1.1.1.1.2, h.1.1.1.2, by omega, by omega, by omega⟩

theorem goDiv_nonpos_of_nonpos (x d : Int) (hx : x ≤ 0) (hd : 0 < d) :
    goDiv x d ≤ 0 := by
  have hx' : 0 ≤ -x := by omega
  have h1 : 0 ≤ goDiv (-x) d := by
    rw [goDiv_nonneg_eq (-x) d hx' (by omega)]
    exact Int.natCast_nonneg _
  have h2 : goDiv (-x) d = -goDiv x d := by
    unfold goDiv
    exact Int.neg_tdiv x d
  linarith

theorem one_le_goDiv_iff (x d : Int) (hd : 0 < d) :
    1 ≤ goDiv x d ↔ d ≤ x := by
  rcases le_or_lt 0 x with hx | hx
  · rw [goDiv_nonneg_eq x d hx (by omega)]
    have h2 : (1 ≤ x.toNat / d.toNat) ↔ d ≤ x := by
      rw [Nat.le_div_iff_mul_le (by omega : 0 < d.toNat)]
      omega
    constructor
    · intro h3
      have h4 : 1 ≤ x.toNat / d.toNat := by exact_mod_cast h3
      exact h2.mp h4
    · intro h3
      exact_mod_cast h2.mpr h3
  · constructor
    · intro h1
      have := goDiv_nonpos_of_nonpos x d (by omega) hd
      omega
    · intro h1
      omega

theorem nobserve_nonneg (cfg : Config) (h : badParams cfg = false) :
    0 ≤ nobserveOf cfg := by
  have := (valid_facts cfg h).2.2.2.2.2
  unfold nobserveOf
  omega

theorem reset_nwindow_pos (cfg : Config) (h : badParams cfg = false)
    (hm : circularMode cfg = false) : 1 ≤ nwindowOf cfg := by
  obtain ⟨hch, -, -, -, hsr, hdv⟩ := valid_facts cfg h
  have hwin : cfg.window = cfg.observeEvery := by
    unfold circularMode at hm
    exact bne_eq_false_iff_eq.mp hm
  have hd : (0 : Int) < nsPerSecond := by unfold nsPerSecond; omega
  have h1 : nsPerSecond ≤ cfg.sampleRate * cfg.observeEvery :=
    (one_le_goDiv_iff _ _ hd).mp hdv
  have h2 : nsPerSecond ≤ cfg.channels * cfg.sampleRate * cfg.window := by
    rw [hwin, mul_assoc]
    have hnn : 0 ≤ cfg.sampleRate * cfg.observeEvery := by
      unfold nsPerSecond at h1; omega
    nlinarith
  exact (one_le_goDiv_iff _ _ hd).mpr h2

/-- Success of `pushSample` (used for the totality claim): in reset mode it
always succeeds, in circular mode it succeeds when the capacity is
positive. -/
theorem pushSample_total (cfg : Config) (st : AState) (s : Int)
    (hc : CoreInv cfg st) (hOK : st.squares = none ∨ 1 ≤ capOf cfg) :
    ∃ st', pushSample st s = some st' := by
  rcases hsq : st.squares with _ | buf
  · have hs : (pushSample st s).isSome = true := by
      simp only [pushSample, hsq]
      rfl
    exact ⟨(pushSample st s).get hs, (Option.some_get hs).symm⟩
  · have hcap1 : 1 ≤ capOf cfg := by
      rcases hOK with h1 | h1
      · rw [hsq] at h1; exact absurd h1 (by simp)
      · exact h1
    have hlen := hc.circLen buf hsq
    obtain ⟨buf₂, nx₂, old₂, hps, -⟩ :=
      pushSquare_spec (capOf cfg) buf st.next (s * s) hcap1 (by omega)
        (hc.circNext buf hsq)
    have hcapeq : st.nwindow.toNat = capOf cfg := by rw [hc.nwin]; rfl
    have hs : (pushSample st s).isSome = true := by
      simp only [pushSample, hsq]
      rw [hcapeq, hps]
      rfl
    exact ⟨(pushSample st s).get hs, (Option.some_get hs).symm⟩

/-- Fold `pushSample_pres` over the samples of one frame. -/
theorem pushSamples_pres (cfg : Config) :
    ∀ (ss : List Int) (st st' : AState), CoreInv cfg st →
      pushSamples st ss = some st' →
      CoreInv cfg st' ∧ st'.hist.length = st.hist.length + ss.length ∧
        st'.pending = st.pending ∧ st'.frames = st.frames ∧
        st'.countdown = st.countdown ∧ st'.reports = st.reports ∧
        st'.events = st.events ∧ st'.nobserve = st.nobserve ∧
        st'.nwindow = st.nwindow ∧
        st'.squares.isSome = st.squares.isSome := by
  intro ss
  induction ss with
  | nil =>
      intro st st' hc h
      simp only [pushSamples] at h
      injection h with h
      subst h
      exact ⟨hc, by simp, rfl, rfl, rfl, rfl, rfl, rfl, rfl, rfl⟩
  | cons s rest ih =>
      intro st st' hc h
      simp only [pushSamples] at h
      rcases h1 : pushSample st s with _ | st1
      · rw [h1] at h; exact absurd h (by simp)
      · rw [h1] at h
        obtain ⟨hc1, hh, hp, hf, hcd, hr, he, hno, hnw, hsr, hpk, hsq⟩ :=
          pushSample_pres cfg st st1 s hc h1
        obtain ⟨hc2, hh2, hp2, hf2, hcd2, hr2, he2, hno2, hnw2, hsq2⟩ :=
          ih st1 st' hc1 h
        refine ⟨hc2, ?_, by rw [hp2, hp], by rw [hf2, hf],
          by rw [hcd2, hcd], by rw [hr2, hr], by rw [he2, he],
          by rw [hno2, hno], by rw [hnw2, hnw], by rw [hsq2, hsq]⟩
        rw [hh2, hh]
        simp [List.length_cons]
        omega

theorem pushSamples_total (cfg : Config) :
    ∀ (ss : List Int) (st : AState), CoreInv cfg st →
      (st.squares = none ∨ 1 ≤ capOf cfg) →
      ∃ st', pushSamples st ss = some st' := by
  intro ss
  induction ss with
  | nil =>
      intro st hc hOK
      exact ⟨st, rfl⟩
  | cons s rest ih =>
      intro st hc hOK
      obtain ⟨st1, h1⟩ := pushSample_total cfg st s hc hOK
      obtain ⟨hc1, -, -, -, -, -, -, -, -, -, -, hsq⟩ :=
        pushSample_pres cfg st st1 s hc h1
      have hOK1 : st1.squares = none ∨ 1 ≤ capOf cfg := by
        rcases hOK with h2 | h2
        · left
          rw [h2] at hsq
          simpa using hsq
        · right; exact h2
      obtain ⟨st', h2⟩ := ih st1 hc1 hOK1
      refine ⟨st', ?_⟩
      simp only [pushSamples, h1, h2]


/-! ### The report scheduler -/

theorem succ_mod_cases (a b : Nat) (hb : 0 < b) :
    (a % b = b - 1 ∧ (a + 1) % b = 0 ∧ (a + 1) / b = a / b + 1) ∨
      (a % b ≠ b - 1 ∧ (a + 1) % b = a % b + 1 ∧ (a + 1) / b = a / b) := by
  have hdm := Nat.div_add_mod a b
  have hlt : a % b < b := Nat.mod_lt a hb
  by_cases he : a % b = b - 1
  · left
    have hd : b * (a / b + 1) = b * (a / b) + b := by ring
    have heq : a + 1 = b * (a / b + 1) := by omega
    refine ⟨he, ?_, ?_⟩
    · rw [heq]
      exact Nat.mul_mod_right b _
    · rw [heq, Nat.mul_div_cancel_left _ hb]
  · right
    have heq : a + 1 = (a % b + 1) + b * (a / b) := by omega
    refine ⟨he, ?_, ?_⟩
    · rw [heq, Nat.add_mul_mod_self_left]
      exact Nat.mod_eq_of_lt (by omega)
    · rw [heq, Nat.add_mul_div_left _ _ hb, Nat.div_eq_of_lt (by omega),
        Nat.zero_add]

/-- `reportCheck` preserves the frame-level invariant: `st1` is the state
after pushing one frame's samples onto a good state `st0`. -/
theorem reportCheck_pres (cfg : Config) (st0 st1 st' : AState)
    (hg : GoodSt cfg st0) (hc1 : CoreInv cfg st1)
    (hh : st1.hist.length = st0.hist.length + cfg.channels.toNat)
    (hf : st1.frames = st0.frames) (hcd : st1.countdown = st0.countdown)
    (hr : st1.reports = st0.reports) (he : st1.events = st0.events)
    (hnz : 1 ≤ nwindowOf cfg)
    (h : reportCheck cfg st1 = some st') :
    GoodSt cfg st' := by
  have hval := hc1.valid
  have hnn : 0 ≤ nobserveOf cfg := nobserve_nonneg cfg hval
  have hcast : nobserveOf cfg = (((nobserveOf cfg).toNat : Nat) : Int) :=
    (Int.toNat_of_nonneg hnn).symm
  simp only [reportCheck] at h
  split at h
  case isTrue hcd0 =>
    split at h
    case isTrue hx => exact absurd h (by simp)
    case isFalse hx =>
      injection h with h
      subst h
      refine ⟨⟨hc1.valid, hc1.nwin, hc1.nobs, hc1.mode, ?_, ?_, hc1.circNW,
          hc1.circLen, hc1.circNext, ?_, hc1.circCont⟩, ?_, ?_, ?_, ?_, ?_,
          ?_⟩
      · show (0 : Int) ≤ if cfg.observePeak then 0 else st1.peak
        split
        · omega
        · exact hc1.peakNN
      · intro hn
        have hn' : st1.squares = none := hn
        constructor
        · show (if st1.squares = none then 0 else st1.sum) =
            sqSum (st1.hist.take (if st1.squares = none then 0
              else st1.sinceReset))
          rw [if_pos hn', if_pos hn']
          simp [sqSum]
        · show (if st1.squares = none then 0 else st1.sinceReset) ≤
            st1.hist.length
          rw [if_pos hn']
          omega
      · intro b hb
        have hb' : st1.squares = some b := hb
        show (if st1.squares = none then 0 else st1.sum) =
          sqSum (st1.hist.take b.length)
        rw [if_neg (by rw [hb']; simp)]
        exact hc1.circSum b hb'
      · show st1.hist.length = (st1.frames + 1) * cfg.channels.toNat
        rw [hh, hf, hg.histLen]
        ring
      · intro h1
        have hnb : 0 < (nobserveOf cfg).toNat := by omega
        obtain ⟨hcs, hrs⟩ := hg.sched1 h1
        have hcd1 : st1.countdown = st0.countdown := hcd
        have hmodeq : st0.frames % (nobserveOf cfg).toNat =
            (nobserveOf cfg).toNat - 1 := by
          have h2 : st1.countdown - 1 = 0 := hcd0
          have h3 : st0.frames % (nobserveOf cfg).toNat <
              (nobserveOf cfg).toNat := Nat.mod_lt _ hnb
          omega
        rcases succ_mod_cases st0.frames (nobserveOf cfg).toNat hnb with
          ⟨-, hm1, hd1⟩ | ⟨hne, -, -⟩
        · constructor
          · show st1.nobserve = nobserveOf cfg -
              (((st1.frames + 1) % (nobserveOf cfg).toNat : Nat) : Int)
            rw [hc1.nobs, hf, hm1]
            simp
          · show st1.reports + 1 = (st1.frames + 1) / (nobserveOf cfg).toNat
            rw [hr, hf, hd1, hrs]
        · exact absurd hmodeq hne
      · intro h0
        obtain ⟨hcs, -⟩ := hg.sched0 h0
        exfalso
        have h2 : st1.countdown - 1 = 0 := hcd0
        rw [hcd, hcs] at h2
        omega
      · intro habs
        have : st1.reports + 1 = 0 := habs
        omega
      · intro s n seen hmem
        have hmem' : Event.rms s n seen ∈ reportEvents cfg
            { st1 with frames := st1.frames + 1 } := hmem
        simp only [reportEvents] at hmem'
        have hstf : ({ st1 with frames := st1.frames + 1 } : AState).events =
            st0.events := he
        rcases hsq1 : st1.squares with _ | buf
        · -- reset mode: the divisor is nwindow
          have hcirc : circularMode cfg = false := by
            rw [← hc1.mode, hsq1]
            rfl
          have hrn : reportN { st1 with frames := st1.frames + 1 } =
              nwindowOf cfg := by
            simp only [reportN, hsq1]
            exact hc1.nwin
          rw [hcirc]
          simp only [if_false, Bool.false_eq_true]
          by_cases hR : cfg.observeRMS = true <;>
            by_cases hP : cfg.observePeak = true <;>
            simp only [hR, hP, if_true, if_false, hstf, List.mem_append,
              List.mem_singleton, Bool.false_eq_true] at hmem' <;>
            [rcases hmem' with (hmem' | hmem') | hmem';
             rcases hmem' with hmem' | hmem';
             rcases hmem' with hmem' | hmem';
             skip]
          all_goals first
            | (rw [he] at hmem'
               have hev := hg.evOK s n seen hmem'
               rw [hcirc] at hev
               simpa using hev)
            | (exfalso; exact Event.noConfusion hmem')
            | (injection hmem' with h1 h2 h3
               rw [h2, hrn])
        · -- circular mode: the divisor is the current buffer length
          have hcirc : circularMode cfg = true := by
            rw [← hc1.mode, hsq1]
            rfl
          have hrn : reportN { st1 with frames := st1.frames + 1 } =
              (buf.length : Int) := by
            simp only [reportN, hsq1]
          rw [hcirc]
          simp only [if_true]
          by_cases hR : cfg.observeRMS = true <;>
            by_cases hP : cfg.observePeak = true <;>
            simp only [hR, hP, if_true, if_false, hstf, List.mem_append,
              List.mem_singleton, Bool.false_eq_true] at hmem' <;>
            [rcases hmem' with (hmem' | hmem') | hmem';
             rcases hmem' with hmem' | hmem';
             rcases hmem' with hmem' | hmem';
             skip]
          all_goals first
            | (rw [he] at hmem'
               have hev := hg.evOK s n seen hmem'
               rw [hcirc] at hev
               simpa using hev)
            | (exfalso; exact Event.noConfusion hmem')
            | (injection hmem' with h1 h2 h3
               rw [h2, h3, hrn, hc1.circLen buf hsq1]
               try simp [Nat.min_comm])
      · intro h0
        have h0' : st1.nwindow = 0 := h0
        rw [hc1.nwin] at h0'
        omega
  case isFalse hcd0 =>
    injection h with h
    subst h
    refine ⟨⟨hc1.valid, hc1.nwin, hc1.nobs, hc1.mode, hc1.peakNN,
        hc1.resetSum, hc1.circNW, hc1.circLen, hc1.circNext, hc1.circSum,
        hc1.circCont⟩, ?_, ?_, ?_, ?_, ?_, ?_⟩
    · show st1.hist.length = (st1.frames + 1) * cfg.channels.toNat
      rw [hh, hf, hg.histLen]
      ring
    · intro h1
      have hnb : 0 < (nobserveOf cfg).toNat := by omega
      obtain ⟨hcs, hrs⟩ := hg.sched1 h1
      have hmodne : st0.frames % (nobserveOf cfg).toNat ≠
          (nobserveOf cfg).toNat - 1 := by
        intro habs
        apply hcd0
        show st1.countdown - 1 = 0
        rw [hcd, hcs, habs]
        omega
      rcases succ_mod_cases st0.frames (nobserveOf cfg).toNat hnb with
        ⟨habs, -, -⟩ | ⟨-, hm1, hd1⟩
      · exact absurd habs hmodne
      · constructor
        · show st1.countdown - 1 = nobserveOf cfg -
            (((st1.frames + 1) % (nobserveOf cfg).toNat : Nat) : Int)
          rw [hcd, hcs, hf, hm1]
          have hml : st0.frames % (nobserveOf cfg).toNat <
              (nobserveOf cfg).toNat := Nat.mod_lt _ hnb
          push_cast
          omega
        · show st1.reports = (st1.frames + 1) / (nobserveOf cfg).toNat
          rw [hr, hf, hd1, hrs]
    · intro h0
      obtain ⟨hcs, hr0⟩ := hg.sched0 h0
      constructor
      · show st1.countdown - 1 = -((st1.frames : Int) + 1)
        rw [hcd, hcs, hf]
        omega
      · show st1.reports = 0
        rw [hr, hr0]
    · intro h0
      have h0' : st1.reports = 0 := h0
      rw [hr] at h0'
      show st1.events = []
      rw [he]
      exact hg.evEmpty h0'
    · intro s n seen hmem
      have hmem' : Event.rms s n seen ∈ st0.events := by
        rw [← he]
        exact hmem
      exact hg.evOK s n seen hmem'
    · intro h0
      have h0' : st1.nwindow = 0 := h0
      rw [hc1.nwin] at h0'
      omega


theorem reportCheck_total (cfg : Config) (st1 : AState)
    (hc1 : CoreInv cfg st1)
    (hbuf : ∀ buf, st1.squares = some buf → 1 ≤ buf.length)
    (hreset : st1.squares = none → 1 ≤ nwindowOf cfg) :
    ∃ st', reportCheck cfg st1 = some st' := by
  simp only [reportCheck]
  split
  · have hn : ¬(cfg.observeRMS = true ∧
        reportN { st1 with frames := st1.frames + 1 } = 0) := by
      rintro ⟨-, habs⟩
      rcases hsq : st1.squares with _ | buf
      · have h2 := hreset hsq
        simp only [reportN, hsq] at habs
        rw [hc1.nwin] at habs
        omega
      · have h2 := hbuf buf hsq
        simp only [reportN, hsq] at habs
        omega
    rw [if_neg hn]
    exact ⟨_, rfl⟩
  · exact ⟨_, rfl⟩

theorem decodeWords_length (cfg : Config) :
    ∀ (k : Nat) (bytes : List Nat), (decodeWords cfg k bytes).length = k := by
  intro k
  induction k with
  | zero => intro bytes; rfl
  | succ k ih =>
      intro bytes
      simp only [decodeWords, List.length_cons, ih]

theorem pushSample_cap_pos (cfg : Config) (st st' : AState) (s : Int)
    (hc : CoreInv cfg st) (h : pushSample st s = some st')
    (buf : List Int) (hsq : st.squares = some buf) : 1 ≤ capOf cfg := by
  by_contra hcap
  have hc0 : capOf cfg = 0 := by omega
  simp only [pushSample, hsq] at h
  have hcapeq : st.nwindow.toNat = capOf cfg := by rw [hc.nwin]; rfl
  rw [hcapeq] at h
  have hlen := hc.circLen buf hsq
  rw [hc0] at hlen
  simp only [Nat.min_zero] at hlen
  have hbuf : buf = [] := List.length_eq_zero.mp hlen
  have hnx1 : st.next = -1 := by
    rcases hc.circNext buf hsq with h1 | ⟨-, h2, h3⟩
    · rw [hbuf] at h1
      simpa using h1
    · rw [hc0] at h3
      omega
  rw [hc0, hbuf, hnx1, pushSquare_cap0] at h
  exact Option.noConfusion h

theorem procFrame_pres (cfg : Config) (st0 st' : AState) (samples : List Int)
    (hg : GoodSt cfg st0) (hlen : samples.length = cfg.channels.toNat)
    (h : procFrame cfg st0 samples = some st') : GoodSt cfg st' := by
  simp only [procFrame] at h
  rcases h1 : pushSamples st0 samples with _ | st1
  · rw [h1] at h
    exact absurd h (by simp)
  · rw [h1] at h
    obtain ⟨hc1, hh, -, hf, hcd, hr, he, -, -, -⟩ :=
      pushSamples_pres cfg samples st0 st1 hg.core h1
    have hch : 1 ≤ cfg.channels.toNat := by
      have := (valid_facts cfg hg.core.valid).1
      omega
    have hnz : 1 ≤ nwindowOf cfg := by
      rcases hsamp : samples with _ | ⟨s, rest⟩
      · rw [hsamp] at hlen
        simp at hlen
        omega
      · rw [hsamp] at h1
        simp only [pushSamples] at h1
        rcases hpush : pushSample st0 s with _ | stm
        · rw [hpush] at h1
          exact absurd h1 (by simp)
        · rcases hsq0 : st0.squares with _ | buf
          · have hcm : circularMode cfg = false := by
              rw [← hg.core.mode, hsq0]
              rfl
            exact reset_nwindow_pos cfg hg.core.valid hcm
          · have hcap := pushSample_cap_pos cfg st0 stm s hg.core hpush
              buf hsq0
            have hnn : 0 ≤ nwindowOf cfg := by
              have := hg.core.circNW (by rw [hsq0]; rfl)
              rw [hg.core.nwin] at this
              exact this
            unfold capOf at hcap
            omega
    exact reportCheck_pres cfg st0 st1 st' hg hc1 (by rw [hh, hlen]) hf hcd
      hr he hnz h

theorem procFrame_total (cfg : Config) (st0 : AState) (samples : List Int)
    (hg : GoodSt cfg st0) (hlen : 1 ≤ samples.length)
    (hOK : st0.squares = none ∨ 1 ≤ capOf cfg)
    (hreset : circularMode cfg = false → 1 ≤ nwindowOf cfg) :
    ∃ st', procFrame cfg st0 samples = some st' := by
  obtain ⟨st1, h1⟩ := pushSamples_total cfg samples st0 hg.core hOK
  obtain ⟨hc1, hh, -, -, -, -, -, -, -, hsome⟩ :=
    pushSamples_pres cfg samples st0 st1 hg.core h1
  have hbuf : ∀ buf, st1.squares = some buf → 1 ≤ buf.length := by
    intro buf hb
    have hl := hc1.circLen buf hb
    have hcap : 1 ≤ capOf cfg := by
      rcases hOK with h2 | h2
      · exfalso
        rw [h2] at hsome
        rw [hb] at hsome
        simp at hsome
      · exact h2
    have hhist : 1 ≤ st1.hist.length := by omega
    omega
  have hres : st1.squares = none → 1 ≤ nwindowOf cfg := by
    intro hn
    apply hreset
    rw [← hc1.mode, hn]
    rfl
  obtain ⟨st', h2⟩ := reportCheck_total cfg st1 hc1 hbuf hres
  refine ⟨st', ?_⟩
  simp only [procFrame, h1, h2]


/-! ### The frame loop -/

theorem wordSize_mod8 (cfg : Config) (h : badParams cfg = false) :
    cfg.wordSize % 8 = 0 := by
  obtain ⟨-, -, hwsm, -, -, -⟩ := valid_facts cfg h
  have h2 := Nat.and_pow_two_sub_one_eq_mod cfg.wordSize 3
  norm_num at h2
  rw [← h2]
  exact hwsm

theorem frameBytes_pos (cfg : Config) (h : badParams cfg = false) :
    1 ≤ frameBytesI cfg ∧
      frameBytesI cfg =
        ((cfg.channels.toNat * wordBytes cfg.wordSize : Nat) : Int) := by
  obtain ⟨hch, hws0, -, -, -, -⟩ := valid_facts cfg h
  have hmod := wordSize_mod8 cfg h
  obtain ⟨q, hq⟩ : ∃ q, cfg.wordSize = 8 * q := ⟨cfg.wordSize / 8, by omega⟩
  have hq1 : 1 ≤ q := by omega
  have hwb : wordBytes cfg.wordSize = q := by
    unfold wordBytes
    rw [hq]
    have e1 : 8 * q + 7 = 7 + 8 * q := by ring
    rw [e1, Nat.add_mul_div_left 7 q (by omega : 0 < 8)]
    omega
  have hcast : cfg.channels = ((cfg.channels.toNat : Nat) : Int) :=
    (Int.toNat_of_nonneg (by omega)).symm
  have hfb : frameBytesI cfg =
      ((cfg.channels.toNat * q : Nat) : Int) := by
    unfold frameBytesI
    rw [hcast]
    rw [goDiv_nonneg_eq _ _ (by positivity) (by omega)]
    congr 1
    have e2 : ((cfg.channels.toNat : Int) * (cfg.wordSize : Int)).toNat =
        cfg.channels.toNat * cfg.wordSize := by
      rw [← Int.natCast_mul, Int.toNat_natCast]
    rw [e2]
    have e3 : (8 : Int).toNat = 8 := rfl
    rw [e3, hq]
    have e4 : cfg.channels.toNat * (8 * q) = 8 * (cfg.channels.toNat * q) := by
      ring
    rw [e4, Nat.mul_div_cancel_left _ (by omega : 0 < 8)]
    rw [Int.toNat_natCast]
  constructor
  · rw [hfb]
    have : 1 ≤ cfg.channels.toNat * q := by
      have h1 : 1 ≤ cfg.channels.toNat := by omega
      exact Nat.one_le_iff_ne_zero.mpr (by positivity)
    omega
  · rw [hfb, hwb]

/-- The frame loop preserves the invariant, and stops with a remainder
shorter than one frame. -/
theorem runFrames_pres (cfg : Config) :
    ∀ (n : Nat) (p : List Nat), p.length ≤ n →
      ∀ (st st' : AState) (r : List Nat),
      GoodSt cfg st → runFrames cfg st p = some (st', r) →
      GoodSt cfg st' ∧ (r.length : Int) < frameBytesI cfg := by
  intro n
  induction n with
  | zero =>
      intro p hp st st' r hg h
      obtain ⟨hfb1, -⟩ := frameBytes_pos cfg hg.core.valid
      have hp0 : p.length = 0 := by omega
      rw [runFrames_eq, if_pos (by omega : ((p.length : Nat) : Int) <
        frameBytesI cfg)] at h
      injection h with h
      injection h with h1 h2
      subst h1
      subst h2
      exact ⟨hg, by omega⟩
  | succ n ih =>
      intro p hp st st' r hg h
      obtain ⟨hfb1, hfb2⟩ := frameBytes_pos cfg hg.core.valid
      rw [runFrames_eq] at h
      split at h
      case isTrue hlt =>
        injection h with h
        injection h with h1 h2
        subst h1
        subst h2
        exact ⟨hg, hlt⟩
      case isFalse hge =>
        rcases hdf : decodeFrame cfg p with _ | sr
        · simp only [hdf] at h
          exact Option.noConfusion h
        · obtain ⟨samples, rest⟩ := sr
          simp only [hdf] at h
          rcases hpf : procFrame cfg st samples with _ | st1
          · simp only [hpf] at h
            exact Option.noConfusion h
          · simp only [hpf] at h
            have hsam : samples = decodeWords cfg cfg.channels.toNat p ∧
                rest = p.drop (cfg.channels.toNat * wordBytes cfg.wordSize) := by
              simp only [decodeFrame] at hdf
              split at hdf
              · exact absurd hdf (by simp)
              · injection hdf with hdf
                injection hdf with hs1 hs2
                exact ⟨hs1.symm, hs2.symm⟩
            have hslen : samples.length = cfg.channels.toNat := by
              rw [hsam.1]
              exact decodeWords_length cfg _ _
            have hg1 : GoodSt cfg st1 :=
              procFrame_pres cfg st st1 samples hg hslen hpf
            split at h
            case isTrue hdec =>
              have hrle : rest.length ≤ n := by omega
              exact ih rest hrle st1 st' r hg1 h
            case isFalse hdec =>
              exact absurd h (by simp)


/-! ### Write-level preservation and reachability -/

/-- `GoodSt` holds right after first-call initialization of a fresh state. -/
theorem init_good (cfg : Config) (st1 : AState)
    (hval : badParams cfg = false)
    (h : initFields cfg initA = some st1) : GoodSt cfg st1 := by
  have hnn := nobserve_nonneg cfg hval
  simp only [initFields, initA] at h
  by_cases hcm : circularMode cfg = true
  · by_cases hneg : nwindowOf cfg < 0
    · simp only [hcm, if_true, if_pos hneg] at h
      exact Option.noConfusion h
    · simp only [hcm, if_true, if_neg hneg] at h
      injection h with h
      subst h
      refine ⟨⟨hval, rfl, rfl, ?_, le_refl 0, ?_, ?_, ?_, ?_, ?_, ?_⟩,
        ?_, ?_, ?_, ?_, ?_, ?_⟩
      · rw [hcm]
        rfl
      · intro hn
        exact absurd hn (by simp)
      · intro _
        show 0 ≤ nwindowOf cfg
        omega
      · intro b hb
        injection hb with hb
        subst hb
        simp
      · intro b hb
        injection hb with hb
        subst hb
        left
        simp
      · intro b hb
        injection hb with hb
        subst hb
        rfl
      · intro b hb
        injection hb with hb
        subst hb
        intro j hj
        simp at hj
      · simp
      · intro h1
        exact ⟨by simp, by simp⟩
      · intro h0
        exact ⟨by rw [h0]; simp, rfl⟩
      · intro _
        rfl
      · intro s nn seen hmem
        simp at hmem
      · intro _
        rfl
  · have hcm' : circularMode cfg = false := by
      rwa [Bool.not_eq_true] at hcm
    simp only [hcm', Bool.false_eq_true, if_false] at h
    injection h with h
    subst h
    have hres : 1 ≤ nwindowOf cfg := reset_nwindow_pos cfg hval hcm'
    refine ⟨⟨hval, rfl, rfl, ?_, le_refl 0, ?_, ?_, ?_, ?_, ?_, ?_⟩,
      ?_, ?_, ?_, ?_, ?_, ?_⟩
    · rw [hcm']
      rfl
    · intro _
      exact ⟨rfl, by simp⟩
    · intro hs
      simp at hs
    · intro b hb
      simp at hb
    · intro b hb
      simp at hb
    · intro b hb
      simp at hb
    · intro b hb
      simp at hb
    · simp
    · intro h1
      exact ⟨by simp, by simp⟩
    · intro h0
      exact ⟨by rw [h0]; simp, rfl⟩
    · intro _
      rfl
    · intro s nn seen hmem
      simp at hmem
    · intro h0
      rfl

/-- Re-initialization in the degenerate circular configuration
(`nwindow = 0`) is the identity on reachable states. -/
theorem init_idem (cfg : Config) (st : AState) (hg : GoodSt cfg st)
    (h0 : st.nwindow = 0) : initFields cfg st = some st := by
  have hval := hg.core.valid
  have hnwof : nwindowOf cfg = 0 := by rw [← hg.core.nwin]; exact h0
  have hcm : circularMode cfg = true := by
    by_contra hcm
    have := reset_nwindow_pos cfg hval (by rwa [Bool.not_eq_true] at hcm)
    omega
  obtain ⟨buf, hsq⟩ : ∃ buf, st.squares = some buf := by
    have hm := hg.core.mode
    rw [hcm] at hm
    rcases hx : st.squares with _ | b
    · rw [hx] at hm
      simp at hm
    · exact ⟨b, rfl⟩
  have hcap0 : capOf cfg = 0 := by
    unfold capOf
    rw [hnwof]
    rfl
  have hlen := hg.core.circLen buf hsq
  rw [hcap0] at hlen
  simp only [Nat.min_zero] at hlen
  have hbuf : buf = [] := List.length_eq_zero.mp hlen
  have hnext : st.next = -1 := by
    rcases hg.core.circNext buf hsq with h1 | ⟨-, h2, h3⟩
    · rw [hbuf] at h1
      simpa using h1
    · rw [hcap0] at h3
      omega
  have hfr : st.frames = 0 := hg.degen h0
  have hcd : st.countdown = nobserveOf cfg := by
    rcases le_or_lt 1 (nobserveOf cfg) with h1 | h1
    · obtain ⟨hcs, -⟩ := hg.sched1 h1
      rw [hcs, hfr]
      simp
    · have h2 : nobserveOf cfg = 0 := by
        have := nobserve_nonneg cfg hval
        omega
      obtain ⟨hcs, -⟩ := hg.sched0 h2
      rw [hcs, hfr, h2]
      simp
  have hno : st.nobserve = nobserveOf cfg := hg.core.nobs
  simp only [initFields, hcm, if_true]
  rw [if_neg (by omega : ¬ nwindowOf cfg < 0)]
  subst hbuf
  rcases st with ⟨p, sq, sm, nx, cd, no, nw, pk, ev, hi, sr, fr, rp⟩
  simp only at hsq hnext hcd hno h0
  subst hsq
  subst hnext
  subst hcd
  subst hno
  have hnww : nwindowOf cfg = nw := by omega
  rw [hnww]

/-- The invariant ignores the pending-byte store. -/
theorem goodSt_pending (cfg : Config) (st : AState) (r : List Nat)
    (hg : GoodSt cfg st) : GoodSt cfg { st with pending := r } :=
  ⟨⟨hg.core.valid, hg.core.nwin, hg.core.nobs, hg.core.mode, hg.core.peakNN,
    hg.core.resetSum, hg.core.circNW, hg.core.circLen, hg.core.circNext,
    hg.core.circSum, hg.core.circCont⟩, hg.histLen, hg.sched1, hg.sched0,
    hg.evEmpty, hg.evOK, hg.degen⟩

theorem writeBody_pres (cfg : Config) (st1 st2 : AState) (p : List Nat)
    (n : Nat) (e : Bool) (hg : GoodSt cfg st1)
    (h : writeBody cfg st1 p = some (st2, n, e)) : GoodSt cfg st2 := by
  simp only [writeBody] at h
  rcases hrf : runFrames cfg st1 (st1.pending ++ p) with _ | sr
  · simp only [hrf] at h
    exact Option.noConfusion h
  · obtain ⟨st3, rest⟩ := sr
    simp only [hrf] at h
    injection h with h
    injection h with h1 h2
    subst h1
    obtain ⟨hg3, -⟩ := runFrames_pres cfg (st1.pending ++ p).length
      (st1.pending ++ p) le_rfl st1 st3 rest hg hrf
    exact goodSt_pending cfg st3 rest hg3

theorem write_pres (cfg : Config) (st st2 : AState) (p : List Nat)
    (hr : st = initA ∨ GoodSt cfg st) (n : Nat) (e : Bool)
    (h : write cfg st p = some (st2, n, e)) :
    st2 = initA ∨ GoodSt cfg st2 := by
  simp only [write] at h
  split at h
  case isTrue h0 =>
    split at h
    case isTrue hbad =>
      injection h with h
      injection h with h1 h2
      subst h1
      exact hr
    case isFalse hbad =>
      have hval : badParams cfg = false := by
        rwa [Bool.not_eq_true] at hbad
      rcases hif : initFields cfg st with _ | st1
      · simp only [hif] at h
        exact Option.noConfusion h
      · simp only [hif] at h
        have hg1 : GoodSt cfg st1 := by
          rcases hr with rfl | hg
          · exact init_good cfg st1 hval hif
          · rw [init_idem cfg st hg h0] at hif
            injection hif with hif
            rw [← hif]
            exact hg
        exact Or.inr (writeBody_pres cfg st1 st2 p n e hg1 h)
  case isFalse h0 =>
    rcases hr with rfl | hg
    · exact absurd rfl h0
    · exact Or.inr (writeBody_pres cfg st st2 p n e hg h)

theorem writeChunksAux_good (cfg : Config) :
    ∀ (chunks : List (List Nat)) (st0 st : AState),
      (st0 = initA ∨ GoodSt cfg st0) →
      writeChunksAux cfg (some st0) chunks = some st →
      st = initA ∨ GoodSt cfg st := by
  intro chunks
  induction chunks with
  | nil =>
      intro st0 st hr h
      injection h with h
      rw [← h]
      exact hr
  | cons c rest ih =>
      intro st0 st hr h
      simp only [writeChunksAux] at h
      rcases hw : write cfg st0 c with _ | r
      · rw [hw] at h
        exact Option.noConfusion h
      · obtain ⟨st1, n, e⟩ := r
        rw [hw] at h
        exact ih st1 st (write_pres cfg st0 st1 c hr n e hw) h

/-- Every state reachable through a sequence of `Write` calls on a fresh
analyzer is the initial state or satisfies the full invariant. -/
theorem writeChunks_good (cfg : Config) (chunks : List (List Nat))
    (st : AState) (h : writeChunks cfg chunks = some st) :
    st = initA ∨ GoodSt cfg st :=
  writeChunksAux_good cfg chunks initA st (Or.inl rfl) h


/-! ### Totality (no panics) for well-sized windows -/

theorem runFrames_total (cfg : Config) :
    ∀ (n : Nat) (p : List Nat), p.length ≤ n → ∀ (st : AState),
      GoodSt cfg st → (circularMode cfg = false ∨ 1 ≤ nwindowOf cfg) →
      ∃ st' r, runFrames cfg st p = some (st', r) := by
  intro n
  induction n with
  | zero =>
      intro p hp st hg hOK
      obtain ⟨hfb1, -⟩ := frameBytes_pos cfg hg.core.valid
      refine ⟨st, p, ?_⟩
      rw [runFrames_eq, if_pos (by omega : ((p.length : Nat) : Int) <
        frameBytesI cfg)]
  | succ n ih =>
      intro p hp st hg hOK
      obtain ⟨hfb1, hfb2⟩ := frameBytes_pos cfg hg.core.valid
      by_cases hlt : ((p.length : Nat) : Int) < frameBytesI cfg
      · exact ⟨st, p, by rw [runFrames_eq, if_pos hlt]⟩
      · have hneed : cfg.channels.toNat * wordBytes cfg.wordSize ≤
            p.length := by omega
        have hdf : decodeFrame cfg p =
            some (decodeWords cfg cfg.channels.toNat p,
              p.drop (cfg.channels.toNat * wordBytes cfg.wordSize)) := by
          simp only [decodeFrame]
          rw [if_neg (by omega)]
        have hslen : (decodeWords cfg cfg.channels.toNat p).length =
            cfg.channels.toNat := decodeWords_length cfg _ _
        have hch : 1 ≤ cfg.channels.toNat := by
          have := (valid_facts cfg hg.core.valid).1
          omega
        have hOK' : st.squares = none ∨ 1 ≤ capOf cfg := by
          rcases hOK with h1 | h1
          · left
            have hm := hg.core.mode
            rw [h1] at hm
            exact Option.not_isSome_iff_eq_none.mp (by simp [hm])
          · right
            unfold capOf
            omega
        have hres : circularMode cfg = false → 1 ≤ nwindowOf cfg :=
          fun hc => reset_nwindow_pos cfg hg.core.valid hc
        obtain ⟨st1, hpf⟩ := procFrame_total cfg st
          (decodeWords cfg cfg.channels.toNat p) hg (by omega) hOK' hres
        have hg1 : GoodSt cfg st1 :=
          procFrame_pres cfg st st1 _ hg hslen hpf
        have hrl : (p.drop (cfg.channels.toNat *
            wordBytes cfg.wordSize)).length ≤ n := by
          rw [List.length_drop]
          omega
        obtain ⟨st', r, hrec⟩ := ih _ hrl st1 hg1 hOK
        refine ⟨st', r, ?_⟩
        rw [runFrames_eq, if_neg hlt]
        simp only [hdf, hpf]
        rw [if_pos (by rw [List.length_drop]; omega)]
        exact hrec

theorem write_total (cfg : Config) (st : AState) (p : List Nat)
    (hr : st = initA ∨ GoodSt cfg st)
    (hOK : circularMode cfg = false ∨ 1 ≤ nwindowOf cfg) :
    ∃ res, write cfg st p = some res := by
  have hbody : ∀ st1, GoodSt cfg st1 → ∃ res, writeBody cfg st1 p = some res := by
    intro st1 hg1
    obtain ⟨st', r, hrf⟩ := runFrames_total cfg (st1.pending ++ p).length
      (st1.pending ++ p) le_rfl st1 hg1 hOK
    have hwb : writeBody cfg st1 p =
        some ({ st' with pending := r }, p.length, false) := by
      simp only [writeBody, hrf]
    exact ⟨_, hwb⟩
  simp only [write]
  split
  case isTrue h0 =>
    by_cases hbad : badParams cfg = true
    · rw [if_pos hbad]
      exact ⟨_, rfl⟩
    · have hval : badParams cfg = false := by
        rwa [Bool.not_eq_true] at hbad
      rw [if_neg (by rw [hval]; simp)]
      rcases hr with rfl | hg
      · have hinit : ∃ st1, initFields cfg initA = some st1 := by
          simp only [initFields]
          by_cases hcm : circularMode cfg = true
          · have hnw : ¬(nwindowOf cfg < 0) := by
              rcases hOK with h1 | h1
              · rw [h1] at hcm
                exact absurd hcm (by simp)
              · omega
            rw [hcm]
            simp only [if_true, if_neg hnw]
            exact ⟨_, rfl⟩
          · have hcm' : circularMode cfg = false := by
              rwa [Bool.not_eq_true] at hcm
            rw [hcm']
            simp only [Bool.false_eq_true, if_false]
            exact ⟨_, rfl⟩
        obtain ⟨st1, hif⟩ := hinit
        rw [hif]
        exact hbody st1 (init_good cfg st1 hval hif)
      · rw [init_idem cfg st hg h0]
        exact hbody st hg
  case isFalse h0 =>
    rcases hr with rfl | hg
    · exact absurd rfl h0
    · exact hbody st hg

theorem writeChunksAux_total (cfg : Config) :
    ∀ (chunks : List (List Nat)) (st0 : AState),
      (st0 = initA ∨ GoodSt cfg st0) →
      (circularMode cfg = false ∨ 1 ≤ nwindowOf cfg) →
      ∃ st, writeChunksAux cfg (some st0) chunks = some st := by
  intro chunks
  induction chunks with
  | nil => intro st0 hr hOK; exact ⟨st0, rfl⟩
  | cons c rest ih =>
      intro st0 hr hOK
      obtain ⟨⟨st1, n, e⟩, hw⟩ := write_total cfg st0 c hr hOK
      obtain ⟨st, hrec⟩ := ih st1 (write_pres cfg st0 st1 c hr n e hw) hOK
      exact ⟨st, by simp only [writeChunksAux, hw, hrec]⟩


/-! ### Chunking: `Write` is insensitive to how the byte stream is split -/

theorem pushSample_pending (st : AState) (r : List Nat) (s : Int) :
    pushSample { st with pending := r } s =
      (pushSample st s).map (fun x => { x with pending := r }) := by
  simp only [pushSample]
  rcases hsq : st.squares with _ | buf
  · simp only [hsq]
    rfl
  · simp only [hsq]
    rcases hps : pushSquare st.nwindow.toNat buf st.next (s * s) with _ | t
    · simp only [hps]
      rfl
    · obtain ⟨b2, n2, o2⟩ := t
      simp only [hps]
      rfl

theorem pushSamples_pending :
    ∀ (ss : List Int) (st : AState) (r : List Nat),
      pushSamples { st with pending := r } ss =
        (pushSamples st ss).map (fun x => { x with pending := r }) := by
  intro ss
  induction ss with
  | nil => intro st r; rfl
  | cons s rest ih =>
      intro st r
      simp only [pushSamples, pushSample_pending]
      rcases h1 : pushSample st s with _ | st1
      · rfl
      · simp only [Option.map_some]
        exact ih st1 r

theorem reportCheck_pending (cfg : Config) (st : AState) (r : List Nat) :
    reportCheck cfg { st with pending := r } =
      (reportCheck cfg st).map (fun x => { x with pending := r }) := by
  simp only [reportCheck, reportN, reportEvents, applyReport]
  split
  · split
    · rfl
    · rfl
  · rfl

theorem procFrame_pending (cfg : Config) (st : AState) (r : List Nat)
    (ss : List Int) :
    procFrame cfg { st with pending := r } ss =
      (procFrame cfg st ss).map (fun x => { x with pending := r }) := by
  simp only [procFrame, pushSamples_pending]
  rcases h1 : pushSamples st ss with _ | st1
  · rfl
  · simp only [Option.map_some]
    exact reportCheck_pending cfg st1 r

theorem runFrames_pending (cfg : Config) :
    ∀ (n : Nat) (p : List Nat), p.length ≤ n → ∀ (st : AState) (r : List Nat),
      runFrames cfg { st with pending := r } p =
        (runFrames cfg st p).map (fun x => ({ x.1 with pending := r }, x.2)) := by
  intro n
  induction n with
  | zero =>
      intro p hp st r
      have hp0 : p.length = 0 := by omega
      rw [runFrames_eq, runFrames_eq]
      by_cases hlt : ((p.length : Nat) : Int) < frameBytesI cfg
      · rw [if_pos hlt, if_pos hlt]
        rfl
      · rw [if_neg hlt, if_neg hlt]
        rcases hdf : decodeFrame cfg p with _ | sr
        · simp only [hdf]
          rfl
        · obtain ⟨samples, rest⟩ := sr
          simp only [hdf, procFrame_pending]
          rcases hpf : procFrame cfg st samples with _ | st1
          · simp only [hpf]
            rfl
          · simp only [hpf, Option.map_some']
            have hno : ¬(rest.length < p.length) := by omega
            rw [if_neg hno]
            try rw [if_neg hno]
            rfl
  | succ n ih =>
      intro p hp st r
      rw [runFrames_eq, runFrames_eq]
      by_cases hlt : ((p.length : Nat) : Int) < frameBytesI cfg
      · rw [if_pos hlt, if_pos hlt]
        rfl
      · rw [if_neg hlt, if_neg hlt]
        rcases hdf : decodeFrame cfg p with _ | sr
        · simp only [hdf]
          rfl
        · obtain ⟨samples, rest⟩ := sr
          simp only [hdf, procFrame_pending]
          rcases hpf : procFrame cfg st samples with _ | st1
          · simp only [hpf]
            rfl
          · simp only [hpf, Option.map_some']
            by_cases hdec : rest.length < p.length
            · rw [if_pos hdec]
              try rw [if_pos hdec]
              exact ih rest (by omega) st1 r
            · rw [if_neg hdec]
              try rw [if_neg hdec]
              rfl

theorem decodeWords_append (cfg : Config) :
    ∀ (k : Nat) (p q : List Nat), k * wordBytes cfg.wordSize ≤ p.length →
      decodeWords cfg k (p ++ q) = decodeWords cfg k p := by
  intro k
  induction k with
  | zero => intro p q h; rfl
  | succ k ih =>
      intro p q h
      have hsm : (k + 1) * wordBytes cfg.wordSize =
          k * wordBytes cfg.wordSize + wordBytes cfg.wordSize := by ring
      have hwb : wordBytes cfg.wordSize ≤ p.length := by omega
      simp only [decodeWords]
      rw [List.take_append_of_le_length hwb,
        List.drop_append_of_le_length hwb]
      rw [ih (p.drop (wordBytes cfg.wordSize)) q
        (by rw [List.length_drop]; omega)]

theorem runFrames_append (cfg : Config) (hval : badParams cfg = false) :
    ∀ (n : Nat) (p : List Nat), p.length ≤ n →
      ∀ (st st' : AState) (r q : List Nat),
      runFrames cfg st p = some (st', r) →
      runFrames cfg st (p ++ q) = runFrames cfg st' (r ++ q) := by
  obtain ⟨hfb1, hfb2⟩ := frameBytes_pos cfg hval
  intro n
  induction n with
  | zero =>
      intro p hp st st' r q h
      rw [runFrames_eq, if_pos (by omega : ((p.length : Nat) : Int) <
        frameBytesI cfg)] at h
      injection h with h
      injection h with h1 h2
      subst h1
      subst h2
      rfl
  | succ n ih =>
      intro p hp st st' r q h
      rw [runFrames_eq] at h
      split at h
      case isTrue hlt =>
        injection h with h
        injection h with h1 h2
        subst h1
        subst h2
        rfl
      case isFalse hge =>
        have hneed : cfg.channels.toNat * wordBytes cfg.wordSize ≤
            p.length := by omega
        have hdfp : decodeFrame cfg p =
            some (decodeWords cfg cfg.channels.toNat p,
              p.drop (cfg.channels.toNat * wordBytes cfg.wordSize)) := by
          simp only [decodeFrame]
          rw [if_neg (by omega)]
        rw [hdfp] at h
        simp only at h
        rcases hpf : procFrame cfg st (decodeWords cfg cfg.channels.toNat p)
          with _ | st1
        · simp only [hpf] at h
          exact Option.noConfusion h
        · simp only [hpf] at h
          rw [if_pos (by rw [List.length_drop]; omega)] at h
          have hdfq : decodeFrame cfg (p ++ q) =
              some (decodeWords cfg cfg.channels.toNat p,
                (p.drop (cfg.channels.toNat * wordBytes cfg.wordSize)) ++ q) := by
            simp only [decodeFrame]
            rw [if_neg (by simp only [List.length_append]; omega)]
            rw [decodeWords_append cfg _ p q hneed,
              List.drop_append_of_le_length hneed]
          rw [runFrames_eq, if_neg (by simp only [List.length_append]; omega)]
          simp only [hdfq, hpf]
          have hd2 : (p.drop (cfg.channels.toNat * wordBytes cfg.wordSize)
              ++ q).length < (p ++ q).length := by
            simp only [List.length_append, List.length_drop]
            omega
          rw [if_pos hd2]
          exact ih _ (by rw [List.length_drop]; omega) st1 st' r q h

theorem runFrames_append_none (cfg : Config) (hval : badParams cfg = false) :
    ∀ (n : Nat) (p : List Nat), p.length ≤ n → ∀ (st : AState) (q : List Nat),
      runFrames cfg st p = none →
      runFrames cfg st (p ++ q) = none := by
  obtain ⟨hfb1, hfb2⟩ := frameBytes_pos cfg hval
  intro n
  induction n with
  | zero =>
      intro p hp st q h
      rw [runFrames_eq, if_pos (by omega : ((p.length : Nat) : Int) <
        frameBytesI cfg)] at h
      exact Option.noConfusion h
  | succ n ih =>
      intro p hp st q h
      rw [runFrames_eq] at h
      split at h
      case isTrue hlt => exact Option.noConfusion h
      case isFalse hge =>
        have hneed : cfg.channels.toNat * wordBytes cfg.wordSize ≤
            p.length := by omega
        have hdfp : decodeFrame cfg p =
            some (decodeWords cfg cfg.channels.toNat p,
              p.drop (cfg.channels.toNat * wordBytes cfg.wordSize)) := by
          simp only [decodeFrame]
          rw [if_neg (by omega)]
        rw [hdfp] at h
        simp only at h
        have hdfq : decodeFrame cfg (p ++ q) =
            some (decodeWords cfg cfg.channels.toNat p,
              (p.drop (cfg.channels.toNat * wordBytes cfg.wordSize)) ++ q) := by
          simp only [decodeFrame]
          rw [if_neg (by simp only [List.length_append]; omega)]
          rw [decodeWords_append cfg _ p q hneed,
            List.drop_append_of_le_length hneed]
        rw [runFrames_eq, if_neg (by simp only [List.length_append]; omega)]
        simp only [hdfq]
        rcases hpf : procFrame cfg st (decodeWords cfg cfg.channels.toNat p)
          with _ | st1
        · simp only [hpf]
          try rfl
        · simp only [hpf] at h ⊢
          rw [if_pos (by rw [List.length_drop]; omega)] at h
          have hd2 : (p.drop (cfg.channels.toNat * wordBytes cfg.wordSize)
              ++ q).length < (p ++ q).length := by
            simp only [List.length_append, List.length_drop]
            omega
          rw [if_pos hd2]
          exact ih _ (by rw [List.length_drop]; omega) st1 q h


theorem writeBody_split (cfg : Config) (st1 : AState) (b1 b2 : List Nat)
    (hg : GoodSt cfg st1) :
    (writeBody cfg st1 (b1 ++ b2)).map (fun x => x.1) =
      (writeBody cfg st1 b1).bind
        (fun x => (write cfg x.1 b2).map (fun y => y.1)) := by
  have hval := hg.core.valid
  rcases hr1 : runFrames cfg st1 (st1.pending ++ b1) with _ | sr
  · have hn : runFrames cfg st1 (st1.pending ++ (b1 ++ b2)) = none := by
      rw [← List.append_assoc]
      exact runFrames_append_none cfg hval (st1.pending ++ b1).length _
        le_rfl st1 b2 hr1
    simp only [writeBody, hn, hr1]
    rfl
  · obtain ⟨st3, r⟩ := sr
    obtain ⟨hg3, hrlen⟩ := runFrames_pres cfg (st1.pending ++ b1).length
      (st1.pending ++ b1) le_rfl st1 st3 r hg hr1
    have hsplit : runFrames cfg st1 (st1.pending ++ (b1 ++ b2)) =
        runFrames cfg st3 (r ++ b2) := by
      rw [← List.append_assoc]
      exact runFrames_append cfg hval (st1.pending ++ b1).length _
        le_rfl st1 st3 r b2 hr1
    have hg4 : GoodSt cfg { st3 with pending := r } :=
      goodSt_pending cfg st3 r hg3
    have hw2 : write cfg { st3 with pending := r } b2 =
        writeBody cfg { st3 with pending := r } b2 := by
      simp only [write]
      by_cases h0 : ({ st3 with pending := r } : AState).nwindow = 0
      · rw [if_pos h0, if_neg (by rw [hval]; simp), init_idem cfg _ hg4 h0]
      · rw [if_neg h0]
    have hpend : runFrames cfg { st3 with pending := r } (r ++ b2) =
        (runFrames cfg st3 (r ++ b2)).map
          (fun x => ({ x.1 with pending := r }, x.2)) :=
      runFrames_pending cfg (r ++ b2).length (r ++ b2) le_rfl st3 r
    simp only [writeBody, hr1, hsplit, Option.some_bind, hw2, hpend]
    rcases hr2 : runFrames cfg st3 (r ++ b2) with _ | sr2
    · simp only [hr2]
      try rfl
    · obtain ⟨st5, rest⟩ := sr2
      simp only [hr2, Option.map_some']
      try rfl

theorem write_split (cfg : Config) (st : AState) (b1 b2 : List Nat)
    (hr : st = initA ∨ GoodSt cfg st) :
    (write cfg st (b1 ++ b2)).map (fun x => x.1) =
      (write cfg st b1).bind
        (fun x => (write cfg x.1 b2).map (fun y => y.1)) := by
  by_cases h0 : st.nwindow = 0
  · by_cases hbad : badParams cfg = true
    · have e1 : write cfg st (b1 ++ b2) = some (st, 0, true) := by
        simp only [write, if_pos h0, if_pos hbad]
      have e2 : write cfg st b1 = some (st, 0, true) := by
        simp only [write, if_pos h0, if_pos hbad]
      have e3 : write cfg st b2 = some (st, 0, true) := by
        simp only [write, if_pos h0, if_pos hbad]
      rw [e1, e2]
      simp only [Option.some_bind]
      rw [e3]
      try rfl
    · have hval : badParams cfg = false := by
        rwa [Bool.not_eq_true] at hbad
      rcases hif : initFields cfg st with _ | st1
      · have e1 : write cfg st (b1 ++ b2) = none := by
          simp only [write, if_pos h0, if_neg hbad, hif]
        have e2 : write cfg st b1 = none := by
          simp only [write, if_pos h0, if_neg hbad, hif]
        rw [e1, e2]
        rfl
      · have hg1 : GoodSt cfg st1 := by
          rcases hr with rfl | hg
          · exact init_good cfg st1 hval hif
          · rw [init_idem cfg st hg h0] at hif
            injection hif with hif
            rw [← hif]
            exact hg
        have e1 : write cfg st (b1 ++ b2) = writeBody cfg st1 (b1 ++ b2) := by
          simp only [write, if_pos h0, if_neg hbad, hif]
        have e2 : write cfg st b1 = writeBody cfg st1 b1 := by
          simp only [write, if_pos h0, if_neg hbad, hif]
        rw [e1, e2]
        exact writeBody_split cfg st1 b1 b2 hg1
  · have hg : GoodSt cfg st := by
      rcases hr with rfl | hg
      · exact absurd rfl h0
      · exact hg
    have e1 : write cfg st (b1 ++ b2) = writeBody cfg st (b1 ++ b2) := by
      simp only [write, if_neg h0]
    have e2 : write cfg st b1 = writeBody cfg st b1 := by
      simp only [write, if_neg h0]
    rw [e1, e2]
    exact writeBody_split cfg st b1 b2 hg

theorem writeChunksAux_none (cfg : Config) :
    ∀ (l : List (List Nat)), writeChunksAux cfg none l = none := by
  intro l
  cases l <;> rfl

theorem writeChunksAux_append (cfg : Config) :
    ∀ (l1 l2 : List (List Nat)) (acc : Option AState),
      writeChunksAux cfg acc (l1 ++ l2) =
        writeChunksAux cfg (writeChunksAux cfg acc l1) l2 := by
  intro l1
  induction l1 with
  | nil =>
      intro l2 acc
      rcases acc with _ | st <;> rfl
  | cons c rest ih =>
      intro l2 acc
      rcases acc with _ | st
      · rw [writeChunksAux_none, writeChunksAux_none, writeChunksAux_none]
      · simp only [List.cons_append, writeChunksAux]
        rcases hw : write cfg st c with _ | r
        · rw [writeChunksAux_none]
        · obtain ⟨st1, n, e⟩ := r
          exact ih l2 (some st1)


/-! ### Concrete configurations used by witnesses and counterexamples -/

/-- Reset mode (`window = observeEvery`): 2 Hz, 8-bit signed mono;
`nwindow = 2`, `nobserve = 1`. -/
def cfgA : Config := ⟨2, 8, 1, true, true, nsPerSecond, nsPerSecond, true, true⟩

/-- Circular-buffer mode: 2 s window, 1 s reports; `nwindow = 4`,
`nobserve = 1`. -/
def cfgB : Config :=
  ⟨2, 8, 1, true, true, 2 * nsPerSecond, nsPerSecond, true, true⟩

/-- The degenerate valid configuration: 1 Hz, 1 s reports, so
`nobserve = 0`. -/
def cfgC : Config := ⟨1, 8, 1, true, true, nsPerSecond, nsPerSecond, true, true⟩

/-- 5 Hz reset mode: `nobserve = 4`. -/
def cfgD : Config := ⟨5, 8, 1, true, true, nsPerSecond, nsPerSecond, true, true⟩

/-- Like `cfgA` but with no peak observer configured. -/
def cfgE : Config :=
  ⟨2, 8, 1, true, true, nsPerSecond, nsPerSecond, true, false⟩

/-! ### Claim C1: sign conversion of decoded words -/

/-- **C1 (counterexample).**  The claim states that for a signed
configuration a raw word with the top bit set decodes to the negative
two's-complement value `raw - 2^wordSize`.  At `wordSize = 8`,
`raw = 0x80 = 128` the code decodes to `+128` (the two's-complement
magnitude), not `-128`. -/
theorem C1_counterexample :
    signConvert true 8 128 = 128 ∧ ((128 : Int) - 2 ^ 8 = -128) ∧
      signConvert true 8 128 ≠ (128 : Int) - 2 ^ 8 := by
  decide

/-- **C1 (amended).**  For every word size `0 < ws` and raw word
`raw < 2^ws`: in signed mode, when the top bit is set the decoded sample is
`2^ws - raw`, the *negation* of the two's-complement value (hence strictly
positive, not negative); in unsigned mode the decoded sample is
`raw - 2^(ws-1)` as the claim states. -/
theorem C1_sign_conversion (ws raw : Nat) (h1 : 0 < ws) (h2 : raw < 2 ^ ws) :
    (Nat.testBit raw (ws - 1) = true →
        signConvert true ws raw = (2 ^ ws : Int) - raw ∧
          0 < signConvert true ws raw) ∧
      signConvert false ws raw = (raw : Int) - ((2 ^ (ws - 1) : Nat) : Int) := by
  constructor
  · intro ht
    have hand : raw &&& (1 <<< (ws - 1)) = 2 ^ (ws - 1) := by
      rw [Nat.one_shiftLeft]
      rw [Nat.and_two_pow]
      rw [ht]
      simp
    have hckind : (raw &&& (1 <<< (ws - 1)) != 0) = true := by
      rw [hand]
      simp
    have hxor : raw ^^^ ((1 <<< ws) - 1) = 2 ^ ws - 1 - raw := by
      rw [Nat.one_shiftLeft]
      exact xor_two_pow_sub_one ws raw h2
    have hval : signConvert true ws raw =
        (((2 ^ ws - 1 - raw) + 1 : Nat) : Int) := by
      simp only [signConvert, hckind, if_true, hxor]
    constructor
    · rw [hval]
      have hsub : (2 ^ ws - 1 - raw) + 1 = 2 ^ ws - raw := by omega
      rw [hsub]
      have hle2 : raw ≤ 2 ^ ws := by omega
      push_cast [hle2]
      ring
    · rw [hval]
      have hpos : 1 ≤ (2 ^ ws - 1 - raw) + 1 := by omega
      exact_mod_cast hpos
  · simp only [signConvert, Bool.false_eq_true, if_false]
    rw [Nat.one_shiftLeft]

/-- **C1 (witness).**  The amended theorem at `ws = 8`, `raw = 200`:
decoded signed value `2^8 - 200 = 56 > 0`, unsigned value `200 - 128`. -/
theorem C1_witness :
    0 < 8 ∧ 200 < 2 ^ 8 ∧ Nat.testBit 200 7 = true ∧
      signConvert true 8 200 = (2 ^ 8 : Int) - 200 ∧
      signConvert false 8 200 = (200 : Int) - ((2 ^ 7 : Nat) : Int) :=
  ⟨by decide, by decide, by decide,
    ((C1_sign_conversion 8 200 (by decide) (by decide)).1 (by decide)).1,
    (C1_sign_conversion 8 200 (by decide) (by decide)).2⟩

/-! ### Claim C6: first-call parameter validation -/

theorem badParams_iff (cfg : Config) :
    badParams cfg = true ↔
      ¬(1 ≤ cfg.channels ∧ cfg.wordSize ≠ 0 ∧ 8 ∣ cfg.wordSize ∧
          cfg.wordSize < 64 ∧ 1 ≤ cfg.sampleRate ∧ 0 ≤ nobserveOf cfg) := by
  have hand := Nat.and_pow_two_sub_one_eq_mod cfg.wordSize 3
  norm_num at hand
  have hdvd : 8 ∣ cfg.wordSize ↔ cfg.wordSize % 8 = 0 :=
    Nat.dvd_iff_mod_eq_zero
  unfold badParams
  simp only [Bool.or_eq_true, decide_eq_true_eq, bne_iff_ne, ne_eq,
    beq_iff_eq]
  rw [hand]
  unfold nobserveOf
  constructor
  · rintro (((((h | h) | h) | h) | h) | h) ⟨h1, h2, h3, h4, h5, h6⟩
    · omega
    · exact h2 h
    · exact h (hdvd.mp h3)
    · omega
    · omega
    · omega
  · intro h
    by_contra hno
    push_neg at hno
    obtain ⟨⟨⟨⟨⟨c1, c2⟩, c3⟩, c4⟩, c5⟩, c6⟩ := hno
    exact h ⟨by omega, c2, hdvd.mpr (by omega), by omega, by omega, by omega⟩

theorem writeBody_no_err (cfg : Config) (st : AState) (p : List Nat)
    (res : AState × Nat × Bool) (h : writeBody cfg st p = some res) :
    res.2.2 = false := by
  simp only [writeBody] at h
  rcases hrf : runFrames cfg st (st.pending ++ p) with _ | sr
  · simp only [hrf] at h
    exact Option.noConfusion h
  · obtain ⟨st3, r⟩ := sr
    simp only [hrf] at h
    injection h with h
    rw [← h]

/-- **C6.**  The first `Write` call on a fresh analyzer returns byte count 0
together with `ErrBadParameters` — leaving the state untouched, decoding
nothing, invoking no observer — if and only if the configuration violates
one of: `channels ≥ 1`; `wordSize > 0`, a multiple of 8, and `< 64`;
`sampleRate ≥ 1`; `reportPeriodSamples ≥ 0`. -/
theorem C6_validation (cfg : Config) (p : List Nat) :
    write cfg initA p = some (initA, 0, true) ↔
      ¬(1 ≤ cfg.channels ∧ cfg.wordSize ≠ 0 ∧ 8 ∣ cfg.wordSize ∧
          cfg.wordSize < 64 ∧ 1 ≤ cfg.sampleRate ∧ 0 ≤ nobserveOf cfg) := by
  rw [← badParams_iff]
  constructor
  · intro h
    by_contra hbad
    simp only [write, if_pos (rfl : (initA).nwindow = 0),
      if_neg hbad] at h
    rcases hif : initFields cfg initA with _ | st1
    · simp only [hif] at h
      exact Option.noConfusion h
    · simp only [hif] at h
      have := writeBody_no_err cfg st1 p (initA, 0, true) h
      simp at this
  · intro hbad
    simp only [write, if_pos hbad]
    simp [initA]


/-! ### Claim C2: the RMS divisor -/

/-- **C2 (counterexample).**  The claim states that in reset mode
(`window = observeEvery`) the divisor is the number of samples accumulated
since the last reset.  In `cfgA` (`windowSamples = 2`, one frame per report)
the first report fires after a single sample, yet the recorded divisor is
`2 = windowSamples`, not `1`. -/
theorem C2_counterexample :
    (writeChunks cfgA [[3]]).map (fun st => st.events) =
        some [Event.rms 9 2 1, Event.peak 3] ∧ (2 : Int) ≠ 1 := by
  decide

/-- **C2 (amended).**  At every report the RMS observer's argument is
`10 * log10 (sqrt (float (sum/n)) / wordMax)` where the divisor `n` is:
in circular-buffer mode (`window ≠ observeEvery`) the number of buffer slots
currently filled, `min (samples seen) windowSamples`; in reset mode
(`window = observeEvery`) always `windowSamples = nwindow` (not the number
of samples accumulated since the reset). -/
theorem C2_rms_divisor (cfg : Config) (chunks : List (List Nat))
    (st : AState) (h : writeChunks cfg chunks = some st) :
    ∀ s n seen, Event.rms s n seen ∈ st.events →
      n = if circularMode cfg then ((min seen (capOf cfg) : Nat) : Int)
          else nwindowOf cfg := by
  rcases writeChunks_good cfg chunks st h with rfl | hg
  · intro s n seen hmem
    simp [initA] at hmem
  · exact hg.evOK

theorem wcB_one_some : (writeChunks cfgB [[1]]).isSome = true := by decide

/-- **C2 (witness).**  In circular mode `cfgB` the first report records
divisor `1 = min 1 windowSamples`. -/
theorem C2_witness :
    Event.rms 1 1 1 ∈ ((writeChunks cfgB [[1]]).get wcB_one_some).events ∧
      (1 : Int) = if circularMode cfgB
        then ((min 1 (capOf cfgB) : Nat) : Int) else nwindowOf cfgB :=
  ⟨by decide,
    C2_rms_divisor cfgB [[1]] _ (Option.some_get wcB_one_some).symm 1 1 1
      (by decide)⟩

/-! ### Claim C3: report cadence -/

/-- **C3 (counterexample).**  The claim asserts the cadence for *every*
valid configuration.  `cfgC` passes validation with
`reportPeriodSamples = nobserve = 0`; after 3 decoded frames not a single
report has fired and no observer was invoked, contradicting any reading of
"exactly one report per 0 decoded samples". -/
theorem C3_counterexample :
    badParams cfgC = false ∧ nobserveOf cfgC = 0 ∧
      (writeChunks cfgC [[1, 2, 3]]).map
          (fun st => (st.frames, st.reports, st.events)) =
        some (3, 0, []) := by
  decide

/-- **C3 (amended).**  For every valid configuration with
`reportPeriodSamples = nobserve ≥ 1`, after any sequence of `Write` calls
exactly `frames / nobserve` reports have fired — one report per `nobserve`
decoded frames, emitted synchronously inside the `Write` call that decodes
the triggering frame (the events are already in the state returned by that
call). -/
theorem C3_report_cadence (cfg : Config) (chunks : List (List Nat))
    (st : AState) (hval : badParams cfg = false)
    (hnb : 1 ≤ nobserveOf cfg) (h : writeChunks cfg chunks = some st) :
    st.reports = st.frames / (nobserveOf cfg).toNat := by
  rcases writeChunks_good cfg chunks st h with rfl | hg
  · simp [initA]
  · exact (hg.sched1 hnb).2

/-- **C3 (witness).**  `cfgA` has `nobserve = 1`: after 3 frames exactly
`3 = 3 / 1` reports. -/
theorem C3_witness :
    badParams cfgA = false ∧ 1 ≤ nobserveOf cfgA ∧
      ((writeChunks cfgA [[1, 2, 3]]).get (by decide)).reports =
        ((writeChunks cfgA [[1, 2, 3]]).get (by decide)).frames /
          (nobserveOf cfgA).toNat :=
  ⟨by decide, by decide,
    C3_report_cadence cfgA [[1, 2, 3]] _ (by decide) (by decide)
      (Option.some_get _).symm⟩

/-! ### Claim C4: the sliding-window sum invariant -/

/-- **C4 (counterexample).**  In reset mode the running sum is *not* the sum
of the squares of the most recent `min(samplesSeen, windowSamples)` samples:
in `cfgA` after two frames (`hist = [2, 1]`, `windowSamples = 2`) the claim
predicts `4 + 1 = 5`, but the sum was zeroed by the report and equals 0. -/
theorem C4_counterexample :
    (writeChunks cfgA [[1, 2]]).map
        (fun st => (st.squares, st.sum, st.hist)) =
      some (none, 0, [2, 1]) ∧
      sqSum ([2, 1].take (min 2 (nwindowOf cfgA).toNat)) = 5 ∧
      (0 : Int) ≠ 5 := by
  decide

/-- **C4 (amended).**  In circular-buffer mode the running sum equals the
sum of the squares of the most recent `min(samplesSeen, windowSamples)`
decoded per-channel samples, at every reachable state.  In reset mode it
equals the sum of the squares of the samples decoded since the last report
(the `sinceReset` ghost counter). -/
theorem C4_window_sum (cfg : Config) (chunks : List (List Nat))
    (st : AState) (h : writeChunks cfg chunks = some st) :
    (st.squares.isSome = true →
        st.sum = sqSum (st.hist.take (min st.hist.length (capOf cfg)))) ∧
      (st.squares = none → st.sum = sqSum (st.hist.take st.sinceReset)) := by
  rcases writeChunks_good cfg chunks st h with rfl | hg
  · constructor
    · intro hs
      simp [initA] at hs
    · intro _
      rfl
  · constructor
    · intro hs
      rcases hsq : st.squares with _ | buf
      · rw [hsq] at hs
        simp at hs
      · have hlen := hg.core.circLen buf hsq
        have hsum := hg.core.circSum buf hsq
        rw [hsum, hlen]
    · intro hn
      exact (hg.core.resetSum hn).1

/-- **C4 (witness).**  Circular mode `cfgB` after three samples:
`sum = 14 = 1 + 4 + 9`. -/
theorem C4_witness :
    (((writeChunks cfgB [[1, 2, 3]]).get (by decide)).squares.isSome
        = true) ∧
      ((writeChunks cfgB [[1, 2, 3]]).get (by decide)).sum =
        sqSum ((((writeChunks cfgB [[1, 2, 3]]).get (by decide)).hist).take
          (min (((writeChunks cfgB [[1, 2, 3]]).get (by decide)).hist).length
            (capOf cfgB))) :=
  ⟨by decide,
    (C4_window_sum cfgB [[1, 2, 3]] _ (Option.some_get _).symm).1
      (by decide)⟩

/-! ### Claim C5: chunking invariance of the byte stream -/

/-- **C5.**  Splitting a chunk in two changes nothing: after any common
prefix of `Write` calls, calling `Write b1` then `Write b2` leaves the
analyzer in exactly the same state (same pending bytes, same window, same
ghost observation sequence) as the single call `Write (b1 ++ b2)` — no byte
is dropped, no sample is decoded from an incomplete frame, leftovers carry
over verbatim, and panics coincide. -/
theorem C5_chunk_split (cfg : Config) (pre : List (List Nat))
    (b1 b2 : List Nat) :
    writeChunks cfg (pre ++ [b1 ++ b2]) = writeChunks cfg (pre ++ [b1, b2]) := by
  unfold writeChunks
  rw [writeChunksAux_append, writeChunksAux_append]
  rcases hpre : writeChunksAux cfg (some initA) pre with _ | st
  · rw [writeChunksAux_none, writeChunksAux_none]
  · have hr := writeChunksAux_good cfg pre initA st (Or.inl rfl) hpre
    have hsplit := write_split cfg st b1 b2 hr
    rcases hw2 : write cfg st b1 with _ | r1
    · rw [hw2] at hsplit
      simp only [Option.none_bind] at hsplit
      have hw1 : write cfg st (b1 ++ b2) = none := by
        rcases hx : write cfg st (b1 ++ b2) with _ | r
        · rfl
        · rw [hx] at hsplit
          simp at hsplit
      simp only [writeChunksAux, hw1, hw2]
    · obtain ⟨st1, n1, e1⟩ := r1
      rw [hw2] at hsplit
      simp only [Option.some_bind] at hsplit
      rcases hw3 : write cfg st1 b2 with _ | r2
      · rw [hw3] at hsplit
        simp only [Option.map_none'] at hsplit
        have hw1 : write cfg st (b1 ++ b2) = none := by
          rcases hx : write cfg st (b1 ++ b2) with _ | r
          · rfl
          · rw [hx] at hsplit
            simp at hsplit
        simp only [writeChunksAux, hw1, hw2, hw3]
      · obtain ⟨st2, n2, e2⟩ := r2
        rw [hw3] at hsplit
        simp only [Option.map_some'] at hsplit
        rcases hx : write cfg st (b1 ++ b2) with _ | r12
        · rw [hx] at hsplit
          simp at hsplit
        · obtain ⟨st12, n12, e12⟩ := r12
          rw [hx] at hsplit
          simp only [Option.map_some'] at hsplit
          injection hsplit with hsplit
          simp only [writeChunksAux, hx, hw2, hw3, hsplit]

/-! ### Claim C7: peak tracking -/

/-- **C7 (counterexample).**  The claim says the peak is reset to 0 after
*every* report.  With no peak observer configured (`cfgE`) a report fires
(RMS is observed) but the tracked peak is left at 3, not reset. -/
theorem C7_counterexample :
    (writeChunks cfgE [[3]]).map (fun st => (st.reports, st.peak)) =
        some (1, 3) ∧ (3 : Int) ≠ 0 := by
  decide

/-- **C7 (amended).**  Every decoded sample `s` updates the peak to
`max peak |s|` (given the inductive fact `0 ≤ peak`); and immediately after
every report *that includes a peak observation* (a configured peak observer)
the peak is reset to 0. -/
theorem C7_peak_tracking (cfg : Config) :
    (∀ (st st' : AState) (s : Int), 0 ≤ st.peak →
        pushSample st s = some st' → st'.peak = max st.peak |s|) ∧
      (∀ (st st' : AState), cfg.observePeak = true →
        st.countdown - 1 = 0 → reportCheck cfg st = some st' →
        st'.peak = 0) := by
  constructor
  · intro st st' s hpk h
    rcases hsq : st.squares with _ | buf
    · simp only [pushSample, hsq] at h
      injection h with h
      subst h
      exact peakUpd_eq_max st.peak s hpk
    · simp only [pushSample, hsq] at h
      rcases hps : pushSquare st.nwindow.toNat buf st.next (s * s) with _ | t
      · rw [hps] at h
        exact absurd h (by simp)
      · obtain ⟨b2, n2, o2⟩ := t
        rw [hps] at h
        injection h with h
        subst h
        exact peakUpd_eq_max st.peak s hpk
  · intro st st' hobs hcd h
    simp only [reportCheck] at h
    split at h
    case isFalse hcd2 => exact absurd hcd hcd2
    case isTrue hcd2 =>
      split at h
      case isTrue hx => exact absurd h (by simp)
      case isFalse hx =>
        injection h with h
        subst h
        show (if cfg.observePeak then 0 else st.peak) = 0
        rw [hobs]
        simp

/-- **C7 (witness).**  A sample `-3` pushed onto a fresh state raises the
peak to `3 = max 0 |-3|`; and a report under `cfgA` (peak observer
configured) resets the peak to 0. -/
theorem C7_witness :
    (0 : Int) ≤ initA.peak ∧
      ((pushSample initA (-3)).get (by decide)).peak =
        max initA.peak |(-3 : Int)| ∧
      cfgA.observePeak = true ∧
      ((((write cfgA initA []).get (by decide)).1).countdown - 1 = 0) ∧
      ((reportCheck cfgA
          (((write cfgA initA []).get (by decide)).1)).get (by decide)).peak
        = 0 :=
  ⟨by decide,
    (C7_peak_tracking cfgA).1 initA _ (-3) (by decide)
      (Option.some_get _).symm,
    by decide, by decide,
    (C7_peak_tracking cfgA).2 _ _ (by decide) (by decide)
      (Option.some_get _).symm⟩

/-! ### Claim C8: no report before the first period elapses -/

/-- **C8.**  Under any valid configuration, if the total number of decoded
per-channel samples over the whole stream is smaller than
`reportPeriodSamples = nobserve`, neither observer is ever invoked and no
report fires — there is no final partial report at end-of-stream. -/
theorem C8_no_early_report (cfg : Config) (chunks : List (List Nat))
    (st : AState) (hval : badParams cfg = false)
    (h : writeChunks cfg chunks = some st)
    (hlt : ((st.hist.length : Nat) : Int) < nobserveOf cfg) :
    st.events = [] ∧ st.reports = 0 := by
  rcases writeChunks_good cfg chunks st h with rfl | hg
  · exact ⟨rfl, rfl⟩
  · have hch : 1 ≤ cfg.channels.toNat := by
      have := (valid_facts cfg hval).1
      omega
    have hfr : st.frames ≤ st.hist.length := by
      rw [hg.histLen]
      exact Nat.le_mul_of_pos_right _ (by omega)
    have hnb : 1 ≤ nobserveOf cfg := by omega
    have hr0 : st.reports = 0 := by
      rw [(hg.sched1 hnb).2]
      apply Nat.div_eq_of_lt
      omega
    exact ⟨hg.evEmpty hr0, hr0⟩

/-- **C8 (witness).**  `cfgD` has `nobserve = 4`; feeding two frames
(2 samples `< 4`) produces no observation. -/
theorem C8_witness :
    badParams cfgD = false ∧
      ((((writeChunks cfgD [[1, 2]]).get (by decide)).hist.length : Int) <
        nobserveOf cfgD) ∧
      ((writeChunks cfgD [[1, 2]]).get (by decide)).events = [] ∧
      ((writeChunks cfgD [[1, 2]]).get (by decide)).reports = 0 :=
  ⟨by decide, by decide,
    (C8_no_early_report cfgD [[1, 2]] _ (by decide)
        (Option.some_get _).symm (by decide)).1,
    (C8_no_early_report cfgD [[1, 2]] _ (by decide)
        (Option.some_get _).symm (by decide)).2⟩

/-! ### Claim C9: totality / in-bounds buffer indexing -/

/-- **C9.**  For every configuration that passes validation, and
additionally has `window = observeEvery` (reset mode) or
`windowSamples ≥ 1`, every sequence of `Write` calls on a fresh analyzer is
total: no circular-buffer index is ever out of bounds and no division by
zero occurs (`none` models those panics).  Validation alone does not
constrain the window, so the extra hypothesis is exactly what rules out the
`windowSamples = 0` (or negative) circular buffer. -/
theorem C9_write_total (cfg : Config) (chunks : List (List Nat))
    (hval : badParams cfg = false)
    (hOK : cfg.window = cfg.observeEvery ∨ 1 ≤ nwindowOf cfg) :
    writeChunks cfg chunks ≠ none := by
  have hOK' : circularMode cfg = false ∨ 1 ≤ nwindowOf cfg := by
    rcases hOK with h1 | h1
    · left
      unfold circularMode
      exact bne_eq_false_iff_eq.mpr h1
    · right
      exact h1
  obtain ⟨st, hst⟩ :=
    writeChunksAux_total cfg chunks initA (Or.inl rfl) hOK'
  unfold writeChunks
  rw [hst]
  exact Option.noConfusion

/-- **C9 (witness).**  The degenerate circular configuration
(`window = 0 ≠ observeEvery`) really panics, while `cfgA` (reset mode)
accepts the same bytes; the theorem applies to `cfgA`. -/
theorem C9_witness :
    badParams cfgA = false ∧ cfgA.window = cfgA.observeEvery ∧
      writeChunks cfgA [[1, 2, 3]] ≠ none :=
  ⟨by decide, by decide,
    C9_write_total cfgA [[1, 2, 3]] (by decide) (Or.inl (by decide))⟩

/-! ### Claim C10: the reportPeriodSamples = 0 degenerate case -/

/-- **C10.**  If `sampleRate * observeEvery` is exactly one sample period
(`nobserve = reportPeriodSamples = 0`) the configuration passes validation,
yet on any input no observer is ever invoked: the countdown starts at 0,
goes negative at the first frame (`countdown = -frames`), and is never
reset. -/
theorem C10_degenerate (cfg : Config) (chunks : List (List Nat))
    (st : AState) (hval : badParams cfg = false)
    (hnb : nobserveOf cfg = 0) (h : writeChunks cfg chunks = some st) :
    st.events = [] ∧ st.reports = 0 ∧
      st.countdown = -((st.frames : Nat) : Int) := by
  rcases writeChunks_good cfg chunks st h with rfl | hg
  · exact ⟨rfl, rfl, by simp [initA]⟩
  · obtain ⟨hcs, hr0⟩ := hg.sched0 hnb
    exact ⟨hg.evEmpty hr0, hr0, hcs⟩

/-- **C10 (witness).**  `cfgC` (1 Hz, 1 s interval) passes validation with
`nobserve = 0`; after 3 frames: no events, no reports, countdown `-3`. -/
theorem C10_witness :
    badParams cfgC = false ∧ nobserveOf cfgC = 0 ∧
      ((writeChunks cfgC [[1, 2, 3]]).get (by decide)).events = [] ∧
      ((writeChunks cfgC [[1, 2, 3]]).get (by decide)).countdown =
        -((((writeChunks cfgC [[1, 2, 3]]).get (by decide)).frames : Nat)
          : Int) :=
  ⟨by decide, by decide,
    (C10_degenerate cfgC [[1, 2, 3]] _ (by decide) (by decide)
        (Option.some_get _).symm).1,
    (C10_degenerate cfgC [[1, 2, 3]] _ (by decide) (by decide)
        (Option.some_get _).symm).2.2⟩

end PcmSpec
